import Mathlib

/-!
# Verification of the separable image resampler (`resampler.cpp`)

This file shallowly embeds the resampling engine of `resampler.cpp` in Lean.
The C code computes in `Resample_Real` (a floating-point type); the embedding
idealises it as exact rational arithmetic (`ℚ`), so every definition below is
executable.  Machine integers are modelled as `ℤ`/`ℕ`, with the one truncating
cast of the code (`(unsigned short)(n)` when a contributor's source index is
stored) made explicit as reduction modulo 2^16.

Definitions are translated from the source.  Two small pieces of the
repository (declared in `resampler.h`, which is not among the sources) are
modelled from the specification and marked as such: `clamp_sample`,
`count_ops`, and the fixed scan-buffer capacity `MAX_SCAN_BUF_SIZE`, which is
kept as an explicit capacity parameter of the engine state.
-/

attribute [local semireducible] Rat.add Rat.mul Rat.sub Rat.inv

namespace Resampler

/-- The sample/weight type `Resample_Real` of the C code, idealised as `ℚ`. -/
abbrev Resample_Real := ℚ

/-- `Sample` type of the engine (same as `Resample_Real` in the code). -/
abbrev Sample := ℚ

/-- Boundary-extension policies (`Resampler::Boundary_Op`). -/
inductive Boundary_Op where
  | BOUNDARY_WRAP
  | BOUNDARY_REFLECT
  | BOUNDARY_CLAMP
deriving DecidableEq

/-- Engine status (`Resampler::Status`). -/
inductive Status where
  | STATUS_OKAY
  | STATUS_OUT_OF_MEMORY
  | STATUS_BAD_FILTER_NAME
  | STATUS_SCAN_BUFFER_FULL
deriving DecidableEq

/-- `(x mod y)` with special handling for negative `x` values (`posmod` in the
source).  `%` on nonnegative C ints agrees with `Int.emod`. -/
def posmod (x y : ℤ) : ℤ :=
  if 0 ≤ x then x % y
  else
    let m := (-x) % y
    if m ≠ 0 then y - m else m

/-- Boundary resolver `Resampler::reflect`: maps a candidate source index `j`
against extent `src_w` into range under the chosen boundary policy. -/
def reflect (j src_w : ℤ) (boundary_op : Boundary_Op) : ℤ :=
  if j < 0 then
    if boundary_op = Boundary_Op.BOUNDARY_REFLECT then
      (if src_w ≤ -j then src_w - 1 else -j)
    else if boundary_op = Boundary_Op.BOUNDARY_WRAP then posmod j src_w
    else 0
  else if src_w ≤ j then
    if boundary_op = Boundary_Op.BOUNDARY_REFLECT then
      (if (src_w - j) + (src_w - 1) < 0 then 0 else (src_w - j) + (src_w - 1))
    else if boundary_op = Boundary_Op.BOUNDARY_WRAP then posmod j src_w
    else src_w - 1
  else j

/-- One weighted contribution (`Resampler::Contrib`).  In the C code the
`pixel` field is filled through the cast `(unsigned short)(n)`. -/
structure Contrib where
  pixel : ℕ
  weight : Resample_Real
deriving DecidableEq

/-- The store `Pcontrib[i].p[k].pixel = (unsigned short)(n)` of `make_clist`:
conversion of a C `int` to `unsigned short` reduces it modulo 2^16. -/
def storePixel (n : ℤ) : ℕ := (n % 65536).toNat

/-! ## Filter kernels

Only the kernels that the claims quantify over concretely are embedded
(`box_filter`, `tent_filter`, and the `clean` clamping helper); the
windowed-sinc family shares the shape `clean_windowed` below, with the
transcendental core abstracted since it has no exact rational value. -/

/-- `box_filter`: 1 on `[-0.5, 0.5)`, else 0. -/
def box_filter (t : Resample_Real) : Resample_Real :=
  if -(1/2) ≤ t ∧ t < 1/2 then 1 else 0

/-- `tent_filter`: `1 - |t|` on `|t| < 1`, else 0. -/
def tent_filter (t : Resample_Real) : Resample_Real :=
  let t := if t < 0 then -t else t
  if t < 1 then 1 - t else 0

/-- `clean`: clamps values of magnitude below `EPSILON = 0.0000125` to zero. -/
def clean (t : Resample_Real) : Resample_Real :=
  if |t| < 125 / 10000000 then 0 else t

/-- Common shape of the windowed kernels of the source (`blackman_filter`,
`gaussian_filter`, `lanczos3/4/6/12_filter`, `kaiser_filter`): fold the sign,
test against the support, and pass the transcendental core `raw` through
`clean`.  The core is abstracted because it is irrational. -/
def clean_windowed (raw : Resample_Real → Resample_Real) (support t : Resample_Real) :
    Resample_Real :=
  let t := if t < 0 then -t else t
  if t < support then clean (raw t) else 0

/-- The names of the 16 registered kernels, in the order of `g_filters`. -/
def g_filter_names : List String :=
  ["box", "tent", "bell", "b-spline", "mitchell", "lanczos3", "blackman",
   "lanczos4", "lanczos6", "lanczos12", "kaiser", "gaussian", "catmullrom",
   "quadratic_interp", "quadratic_approx", "quadratic_mix"]

/-! ## Contributor-list builder (`Resampler::make_clist`) -/

/-- Continuous center of destination coordinate `i`
(`center = (i + 0.5)/xscale - 0.5 + src_ofs`). -/
def centerOf (xscale src_ofs : Resample_Real) (i : ℕ) : Resample_Real :=
  ((i : ℚ) + 1/2) / xscale - 1/2 + src_ofs

/-- Executable floor on `ℚ` (the floor-ring instance on `ℚ` does not reduce
in the kernel; this does, and is proved equal to `⌊⌋` below). -/
def ratFloor (q : ℚ) : ℤ := q.num / q.den

/-- Executable ceiling on `ℚ`. -/
def ratCeil (q : ℚ) : ℤ := -ratFloor (-q)

/-- `left = floor(center - half_width)`. -/
def leftOf (xscale src_ofs half_width : Resample_Real) (i : ℕ) : ℤ :=
  ratFloor (centerOf xscale src_ofs i - half_width)

/-- `right = ceil(center + half_width)`. -/
def rightOf (xscale src_ofs half_width : Resample_Real) (i : ℕ) : ℤ :=
  ratCeil (centerOf xscale src_ofs i + half_width)

/-- The candidate source indices `j = left, left+1, ..., right` (empty when
`right < left`, matching the C `for` loop). -/
def candRange (left right : ℤ) : List ℤ :=
  (List.range (right - left + 1).toNat).map (fun k => left + (k : ℤ))

/-- Raw (unnormalised) kernel weight of candidate `j`:
`(*Pfilter)((center - j) * oo_filter_scale * (downsampling ? xscale : 1))`. -/
def rawWeight (f : ℚ → ℚ) (center oo mult : ℚ) (j : ℤ) : ℚ :=
  f ((center - (j : ℚ)) * oo * mult)

/-- Loop state of the second candidate pass of `make_clist`: the contributors
kept so far, their running `total_weight`, and the index `max_k` / value
`max_w` of the largest weight seen. -/
structure BuildAcc where
  lst : List Contrib
  tw : ℚ
  max_k : ℤ
  max_w : ℚ

/-- One iteration of the candidate loop: skip zero normalised weights,
otherwise append the contributor (with its boundary-resolved, truncated source
index), accumulate the total, and track the first maximal weight. -/
def buildStep (src_w : ℤ) (op : Boundary_Op) (wf : ℤ → ℚ) (a : BuildAcc) (j : ℤ) :
    BuildAcc :=
  let w := wf j
  if w = 0 then a
  else
    { lst := a.lst ++ [⟨storePixel (reflect j src_w op), w⟩]
      tw := a.tw + w
      max_k := if a.max_w < w then (a.lst.length : ℤ) else a.max_k
      max_w := if a.max_w < w then w else a.max_w }

/-- Add `d` to the weight of the contributor at position `k`
(`Pcontrib[i].p[max_k].weight += 1.0f - total_weight`). -/
def bumpAt : List Contrib → ℕ → ℚ → List Contrib
  | [], _, _ => []
  | c :: cs, 0, d => ⟨c.pixel, c.weight + d⟩ :: cs
  | c :: cs, k + 1, d => c :: bumpAt cs k d

/-- The accumulator after the two candidate passes for destination coordinate
`i`: the first pass sums the raw weights into `total_weight` (giving the
normaliser `norm = 1/total_weight`), the second keeps the candidates whose
normalised weight is nonzero. -/
def buildAccOf (src_w : ℤ) (op : Boundary_Op) (f : ℚ → ℚ)
    (xscale src_ofs half_width oo mult : ℚ) (i : ℕ) : BuildAcc :=
  let center := centerOf xscale src_ofs i
  let cands := candRange (leftOf xscale src_ofs half_width i)
                         (rightOf xscale src_ofs half_width i)
  let totalRaw := (cands.map (rawWeight f center oo mult)).sum
  let norm := 1 / totalRaw
  cands.foldl (buildStep src_w op (fun j => rawWeight f center oo mult j * norm))
              ⟨[], 0, -1, -(10 ^ 20 : ℚ)⟩

/-- The contributor list of one destination coordinate `i`, or `none` when no
contributor survived (`max_k == -1 || Pcontrib[i].n == 0` in the source);
otherwise the residual `1 - total_weight` is added to the largest-weight
contributor whenever the total is not exactly 1. -/
def buildOne (src_w : ℤ) (op : Boundary_Op) (f : ℚ → ℚ)
    (xscale src_ofs half_width oo mult : ℚ) (i : ℕ) : Option (List Contrib) :=
  let acc := buildAccOf src_w op f xscale src_ofs half_width oo mult i
  if acc.max_k = -1 ∨ acc.lst.length = 0 then none
  else if acc.tw ≠ 1 then some (bumpAt acc.lst acc.max_k.toNat (1 - acc.tw))
  else some acc.lst

/-- Build the lists of all destination coordinates; `none` as soon as one
coordinate fails (the C code frees everything and returns `NULL`). -/
def buildAll (g : ℕ → Option (List Contrib)) : List ℕ → Option (List (List Contrib))
  | [] => some []
  | i :: is =>
    match g i, buildAll g is with
    | some l, some ls => some (l :: ls)
    | _, _ => none

/-- `xscale = dst_w / (Resample_Real)src_w`. -/
def clistXscale (src_w dst_w : ℕ) : ℚ := (dst_w : ℚ) / (src_w : ℚ)

/-- The stretched half width of the filter: when downsampling
(`xscale < 1`) the support is widened by `1/xscale` before applying
`filter_scale`. -/
def clistHalfWidth (src_w dst_w : ℕ) (filter_support filter_scale : ℚ) : ℚ :=
  (if clistXscale src_w dst_w < 1 then filter_support / clistXscale src_w dst_w
   else filter_support) * filter_scale

/-- The extra argument multiplier `(downsampling ? xscale : 1.0f)` applied to
the kernel argument. -/
def clistMult (src_w dst_w : ℕ) : ℚ :=
  if clistXscale src_w dst_w < 1 then clistXscale src_w dst_w else 1

/-- `Resampler::make_clist`: the full axis contributor table, or `none` on
failure (allocation failure for a nonpositive candidate total, or a
destination coordinate with no surviving contributor). -/
def make_clist (src_w dst_w : ℕ) (op : Boundary_Op) (f : ℚ → ℚ)
    (filter_support filter_scale src_ofs : ℚ) : Option (List (List Contrib)) :=
  let xscale := clistXscale src_w dst_w
  let half_width := clistHalfWidth src_w dst_w filter_support filter_scale
  let total : ℤ := ((List.range dst_w).map (fun i =>
    rightOf xscale src_ofs half_width i - leftOf xscale src_ofs half_width i + 1)).sum
  if total ≤ 0 then none
  else buildAll (buildOne (src_w : ℤ) op f xscale src_ofs half_width
                  (1 / filter_scale) (clistMult src_w dst_w))
                (List.range dst_w)

/-! ## Weight-sum machinery for `make_clist` -/

/-- Sum of the weights of a contributor list. -/
def weightSum (l : List Contrib) : ℚ := (l.map Contrib.weight).sum

/-- Loop invariant of the second candidate pass: the kept weights sum to the
running total, the max-index is `-1` or a valid position, and all stored
source indices are in range. -/
def BuildAccOk (src_w : ℤ) (a : BuildAcc) : Prop :=
  weightSum a.lst = a.tw ∧
  (a.max_k = -1 ∨ (0 ≤ a.max_k ∧ a.max_k.toNat < a.lst.length)) ∧
  (∀ c ∈ a.lst, (c.pixel : ℤ) < src_w)

/-! ## The streaming engine

The engine state mirrors the `Resampler` object's mutable fields.  The scan
buffer is a fixed list of slots (`scan_buf_y[i]`/`scan_buf_l[i]` combined);
`none` is the `-1` free marker.  Its length plays the role of the
`MAX_SCAN_BUF_SIZE` constant, which is declared in `resampler.h` (absent from
the sources) and therefore kept abstract, as a construction parameter. -/

/-- One scan-buffer slot: `none` for free (`scan_buf_y[i] == -1`), otherwise
the cached source row index together with the cached line. -/
abbrev Slot := Option (ℕ × List Sample)

/-- The source row indices currently held in the scan buffer. -/
def bufYs (buf : List Slot) : List ℕ := buf.filterMap (fun sl => sl.map Prod.fst)

/-- The linear scan of `resample_y`: data of the first slot whose row index is
`p`. -/
def lookupRow : List Slot → ℕ → Option (List Sample)
  | [], _ => none
  | none :: rest, p => lookupRow rest p
  | some (y, d) :: rest, p => if y = p then some d else lookupRow rest p

/-- Free the first slot holding row `p` (`m_Pscan_buf->scan_buf_y[j] = -1`). -/
def clearRow : List Slot → ℕ → List Slot
  | [], _ => []
  | none :: rest, p => none :: clearRow rest p
  | some (y, d) :: rest, p =>
    if y = p then none :: rest else some (y, d) :: clearRow rest p

/-- The slot search of `put_line`: store `(y, d)` in the first free slot, or
`none` when the buffer is full. -/
def storeRow : List Slot → ℕ → List Sample → Option (List Slot)
  | [], _, _ => none
  | none :: rest, y, d => some (some (y, d) :: rest)
  | some s :: rest, y, d => (storeRow rest y d).map (fun r => some s :: r)

/-- Mutable state of a `Resampler` object (the `m_` fields). -/
structure EngineState where
  src_w : ℕ
  src_h : ℕ
  dst_w : ℕ
  dst_h : ℕ
  beg_x : ℕ
  end_x : ℕ
  beg_y : ℕ
  end_y : ℕ
  clist_x : List (List Contrib)
  clist_y : List (List Contrib)
  delay_x : Bool
  inter_x : ℕ
  lo : ℚ
  hi : ℚ
  cur_src_y : ℕ
  cur_dst_y : ℕ
  y_count : ℕ → ℤ
  y_flag : ℕ → Bool
  scan_buf : List Slot
  status : Status

/-- `Resampler::resample_x`: apply the X-axis contributor lists of the
destination subrectangle to one source-width row. -/
def resample_x_row (cl : List (List Contrib)) (bx ex : ℕ) (src : List Sample) :
    List Sample :=
  (List.range (ex - bx)).map (fun k =>
    (((cl.getD (bx + k) []).map (fun c => src.getD c.pixel 0 * c.weight)).sum))

/-- `clamp_sample`.  Modelled from the spec: declared in `resampler.h` (absent
from the sources); "any accumulated value outside that range is clipped to the
nearest bound". -/
def clamp_sample (s lo hi : ℚ) : ℚ :=
  if s < lo then lo else if hi < s then hi else s

/-- `scale_y_mov`/`scale_y_add` write `dst_w` entries of `src * weight`;
this is one such scaled row of width `n`. -/
def scale_row (w : ℚ) (r : List Sample) (n : ℕ) : List Sample :=
  (List.range n).map (fun i => r.getD i 0 * w)

/-- Pointwise addition of two rows (`scale_y_add` accumulation). -/
def add_rows (a b : List Sample) : List Sample := a.zipWith (· + ·) b

/-- One contributor iteration of `Resampler::resample_y`: look the cached row
up in the scan buffer, accumulate it, decrement the source row's remaining
dependents, and free its flag and slot when the count reaches zero. -/
def resample_y_step (a : EngineState × List Sample) (c : Contrib) :
    EngineState × List Sample :=
  let s := a.1
  let srcRow := (lookupRow s.scan_buf c.pixel).getD []
  let tmp := add_rows a.2 (scale_row c.weight srcRow s.inter_x)
  let cnt := s.y_count c.pixel - 1
  let s1 := { s with y_count := Function.update s.y_count c.pixel cnt }
  if cnt = 0 then
    ({ s1 with y_flag := Function.update s1.y_flag c.pixel false,
               scan_buf := clearRow s1.scan_buf c.pixel }, tmp)
  else (s1, tmp)

/-- Tail of `resample_y` and `get_line`: optionally apply the delayed X
resample, then the optional output clamp. -/
def postprocess (s : EngineState) (tmp : List Sample) : List Sample :=
  let out := if s.delay_x then resample_x_row s.clist_x s.beg_x s.end_x tmp else tmp
  if s.lo < s.hi then out.map (fun x => clamp_sample x s.lo s.hi) else out

/-- `Resampler::put_line`. -/
def put_line (s : EngineState) (src : List Sample) : Bool × EngineState :=
  if s.src_h ≤ s.cur_src_y then (false, s)
  else if s.y_count s.cur_src_y = 0 then (true, { s with cur_src_y := s.cur_src_y + 1 })
  else
    let cached := if s.delay_x then (List.range s.inter_x).map (fun i => src.getD i 0)
                  else resample_x_row s.clist_x s.beg_x s.end_x src
    match storeRow s.scan_buf s.cur_src_y cached with
    | none => (false, { s with status := Status.STATUS_SCAN_BUFFER_FULL })
    | some buf' =>
      (true, { s with y_flag := Function.update s.y_flag s.cur_src_y true,
                      scan_buf := buf',
                      cur_src_y := s.cur_src_y + 1 })

/-- `Resampler::get_line`. -/
def get_line (s : EngineState) : Option (List Sample) × EngineState :=
  if s.cur_dst_y = s.end_y then (none, s)
  else
    let cl := s.clist_y.getD s.cur_dst_y []
    if cl.all (fun c => s.y_flag c.pixel) then
      let a := cl.foldl resample_y_step (s, List.replicate s.inter_x 0)
      (some (postprocess a.1 a.2), { a.1 with cur_dst_y := s.cur_dst_y + 1 })
    else (none, s)

/-- `count_ops`.  Modelled from the spec: declared in `resampler.h` (absent
from the sources); the per-axis cost estimate is the total contributor count
of the table ("average contributors per destination coordinate" times the
number of coordinates). -/
def count_ops (cl : List (List Contrib)) : ℕ := (cl.map List.length).sum

/-- The number of destination rows depending on source row `p`
(`m_Psrc_y_count` filled by the construction loop over the full destination
height). -/
def count0 (cy : List (List Contrib)) (h p : ℕ) : ℕ :=
  Finset.sum (Finset.range h) (fun i => (cy.getD i []).countP (fun c => c.pixel = p))

/-- The fully initialised engine state once both contributor tables are
built: destination subrectangle resolution (an invalid subrectangle is
silently ignored in favour of the full image), per-source-row dependent
counts, empty scan buffer, cursors at the start, and the X-delay decision by
estimated multiply counts (Y-axis ops weighted by 4/3; ties prefer buffering
less data). -/
def constructed (src_w src_h dst_w dst_h : ℕ) (lo hi : ℚ)
    (sx sy sw sh max_scan : ℕ) (cx cy : List (List Contrib)) : EngineState :=
  let valid := 0 < sw ∧ 0 < sh ∧ sx + sw ≤ dst_w ∧ sy + sh ≤ dst_h
  let bx := if valid then sx else 0
  let ex := if valid then sx + sw else dst_w
  let by' := if valid then sy else 0
  let ey := if valid then sy + sh else dst_h
  let x_ops := count_ops cx
  let y_ops := count_ops cy
  let xy_ops := x_ops * src_h + (4 * y_ops * dst_w) / 3
  let yx_ops := (4 * y_ops * src_w) / 3 + x_ops * dst_h
  let delay : Bool := decide (yx_ops < xy_ops ∨ (xy_ops = yx_ops ∧ src_w < dst_w))
  { src_w := src_w, src_h := src_h, dst_w := dst_w, dst_h := dst_h,
    beg_x := bx, end_x := ex, beg_y := by', end_y := ey,
    clist_x := cx, clist_y := cy, delay_x := delay,
    inter_x := if delay then src_w else ex - bx,
    lo := lo, hi := hi, cur_src_y := 0, cur_dst_y := by',
    y_count := fun p => (count0 cy dst_h p : ℤ),
    y_flag := fun _ => false,
    scan_buf := List.replicate max_scan none,
    status := Status.STATUS_OKAY }

/-- The `Resampler::Resampler` constructor, restricted to the engine-built
contributor-table path (`Pclist_x = Pclist_y = NULL`); the kernel is passed as
a function plus support, as resolved from the registry.  `max_scan` is the
scan-buffer capacity `MAX_SCAN_BUF_SIZE` (declared in `resampler.h`, absent
from the sources, hence an explicit parameter here). -/
def construct (src_w src_h dst_w dst_h : ℕ) (op : Boundary_Op) (lo hi : ℚ)
    (f : ℚ → ℚ) (support fx fy ox oy : ℚ)
    (sx sy sw sh : ℕ) (max_scan : ℕ) : EngineState :=
  let valid := 0 < sw ∧ 0 < sh ∧ sx + sw ≤ dst_w ∧ sy + sh ≤ dst_h
  let bx := if valid then sx else 0
  let ex := if valid then sx + sw else dst_w
  let by' := if valid then sy else 0
  let ey := if valid then sy + sh else dst_h
  let base : EngineState :=
    { src_w := src_w, src_h := src_h, dst_w := dst_w, dst_h := dst_h,
      beg_x := bx, end_x := ex, beg_y := by', end_y := ey,
      clist_x := [], clist_y := [], delay_x := false, inter_x := 0,
      lo := lo, hi := hi, cur_src_y := 0, cur_dst_y := by',
      y_count := fun _ => 0, y_flag := fun _ => false,
      scan_buf := List.replicate max_scan none, status := Status.STATUS_OKAY }
  match make_clist src_w dst_w op f support fx ox with
  | none => { base with status := Status.STATUS_OUT_OF_MEMORY }
  | some cx =>
    match make_clist src_h dst_h op f support fy oy with
    | none => { base with clist_x := cx, status := Status.STATUS_OUT_OF_MEMORY }
    | some cy => constructed src_w src_h dst_w dst_h lo hi sx sy sw sh max_scan cx cy

/-- Pull destination rows until `get_line` returns `none`; `fuel` bounds the
number of pulls (each successful pull advances `cur_dst_y`). -/
def drain : ℕ → EngineState → EngineState × List (List Sample)
  | 0, s => (s, [])
  | fuel + 1, s =>
    match get_line s with
    | (some r, s') =>
      let a := drain fuel s'
      (a.1, r :: a.2)
    | (none, s') => (s', [])

/-- The canonical streaming protocol: feed each source row in order and, after
each feed, pull output rows while `get_line` keeps producing. -/
def runRows : EngineState → List (List Sample) → EngineState × List (List Sample)
  | s, [] => (s, [])
  | s, r :: rs =>
    let s1 := (put_line s r).2
    let a := drain (s1.end_y - s1.cur_dst_y) s1
    let b := runRows a.1 rs
    (b.1, a.2 ++ b.2)

/-! ## Scan-buffer lemmas -/

/-- Well-formedness of the scan buffer relative to the row flags and the
expected cached content: held row indices are distinct, a row is held exactly
when its flag is set, and slot data is the expected cached line. -/
structure BufOk (flag : ℕ → Bool) (cache : ℕ → List Sample) (buf : List Slot) : Prop where
  nodup : (bufYs buf).Nodup
  mem_iff : ∀ p, p ∈ bufYs buf ↔ flag p = true
  data : ∀ y d, (some (y, d) : Slot) ∈ buf → d = cache y

/-! ## Dependency-count lemmas -/

/-- Occurrences of source row `p` among the contributors of one list. -/
def occP (p : ℕ) (l : List Contrib) : ℕ := l.countP (fun c => c.pixel = p)

/-- Contributions of source row `p` already consumed by the destination rows
`[a, b)` (the decrements performed by `resample_y` so far). -/
def consumed (cy : List (List Contrib)) (a b p : ℕ) : ℕ :=
  Finset.sum (Finset.Ico a b) (fun i => occP p (cy.getD i []))

/-! ## Frozen engine fields, cached rows, output rows -/

/-- The engine fields never modified by `put_line`/`get_line` (configuration
and tables fixed at construction), plus preservation of the scan-buffer
capacity. -/
def Frz (s s' : EngineState) : Prop :=
  s'.src_w = s.src_w ∧ s'.src_h = s.src_h ∧ s'.dst_w = s.dst_w ∧ s'.dst_h = s.dst_h ∧
  s'.beg_x = s.beg_x ∧ s'.end_x = s.end_x ∧ s'.beg_y = s.beg_y ∧ s'.end_y = s.end_y ∧
  s'.clist_x = s.clist_x ∧ s'.clist_y = s.clist_y ∧ s'.delay_x = s.delay_x ∧
  s'.inter_x = s.inter_x ∧ s'.lo = s.lo ∧ s'.hi = s.hi ∧
  s'.scan_buf.length = s.scan_buf.length

/-- The line actually cached for source row `p` by `put_line`: the raw row
(truncated to the intermediate width) when X resampling is delayed, otherwise
the X-resampled row. -/
def cacheFun (rows : List (List Sample)) (s : EngineState) (p : ℕ) : List Sample :=
  if s.delay_x then (List.range s.inter_x).map (fun i => (rows.getD p []).getD i 0)
  else resample_x_row s.clist_x s.beg_x s.end_x (rows.getD p [])

/-- The accumulated weighted sum of the cached contributor rows over a prefix
of a contributor list (the working buffer of `resample_y`). -/
def partialTmp (rows : List (List Sample)) (s : EngineState) (l : List Contrib) :
    List Sample :=
  l.foldl (fun t c => add_rows t (scale_row c.weight (cacheFun rows s c.pixel) s.inter_x))
          (List.replicate s.inter_x 0)

/-- The destination row the engine produces for destination coordinate `d`,
in terms of the fed source rows. -/
def outRow (rows : List (List Sample)) (s : EngineState) (d : ℕ) : List Sample :=
  postprocess s (partialTmp rows s (s.clist_y.getD d []))

/-! ## The streaming invariant -/

/-- Invariant tying an engine state to the source rows fed so far.  `ex p` is
the number of contributions of row `p` already consumed inside the current
`resample_y` pass (zero between calls). -/
structure InvAux (rows : List (List Sample)) (s : EngineState) (ex : ℕ → ℕ) : Prop where
  hlen_y : s.clist_y.length = s.dst_h
  hbe : s.beg_y ≤ s.cur_dst_y
  hde : s.cur_dst_y ≤ s.end_y
  heh : s.end_y ≤ s.dst_h
  hsy : s.cur_src_y ≤ s.src_h
  hcap : s.src_h ≤ s.scan_buf.length
  hpix : ∀ i, i < s.dst_h → ∀ c ∈ s.clist_y.getD i [], c.pixel < s.src_h
  hcount : ∀ p, s.y_count p =
    (count0 s.clist_y s.dst_h p : ℤ) -
    (consumed s.clist_y s.beg_y s.cur_dst_y p : ℤ) - (ex p : ℤ)
  hflag : ∀ p, s.y_flag p = true ↔ (p < s.cur_src_y ∧ s.y_count p ≠ 0)
  hbuf : BufOk s.y_flag (cacheFun rows s) s.scan_buf

/-- The invariant between `put_line`/`get_line` calls. -/
def Inv (rows : List (List Sample)) (s : EngineState) : Prop :=
  InvAux rows s (fun _ => 0)

/-! ## Lemmas on the boundary resolver -/

theorem ratFloor_eq (q : ℚ) : ratFloor q = ⌊q⌋ := Rat.floor_def.symm

theorem ratCeil_eq (q : ℚ) : ratCeil q = ⌈q⌉ := by
  rw [ratCeil, ratFloor_eq, Int.floor_neg, neg_neg]

theorem posmod_eq_emod (x y : ℤ) (hy : 0 < y) : posmod x y = x % y := by
  by_cases hx : 0 ≤ x
  · simp [posmod, hx]
  · have hneg : (-x) % y = (y - x % y) % y := by
      rw [Int.neg_emod, Int.sub_emod y x, Int.sub_emod y (x % y),
        Int.emod_emod_of_dvd x (dvd_refl y)]
    have hb1 : 0 ≤ x % y := Int.emod_nonneg x hy.ne'
    have hb2 : x % y < y := Int.emod_lt_of_pos x hy
    by_cases h0 : x % y = 0
    · have hz : (-x) % y = 0 := by rw [hneg, h0, sub_zero, Int.emod_self]
      simp [posmod, hx, hz, h0]
    · have hm : (-x) % y = y - x % y := by
        rw [hneg, Int.emod_eq_of_lt (by omega) (by omega)]
      have hne : y - x % y ≠ 0 := by omega
      simp only [posmod, hx, if_false, hm, ne_eq, hne, not_false_iff, if_true]
      omega

theorem posmod_bounds (x y : ℤ) (hy : 0 < y) : 0 ≤ posmod x y ∧ posmod x y < y := by
  rw [posmod_eq_emod x y hy]
  exact ⟨Int.emod_nonneg x hy.ne', Int.emod_lt_of_pos x hy⟩

theorem reflect_nonneg_lt (j src_w : ℤ) (op : Boundary_Op) (h : 0 < src_w) :
    0 ≤ reflect j src_w op ∧ reflect j src_w op < src_w := by
  have hw1 := posmod_bounds j src_w h
  simp only [reflect]
  split_ifs <;> omega

/-- `storePixel` never escapes the range of a nonnegative input. -/
theorem storePixel_le_toNat (n : ℤ) (hn : 0 ≤ n) : storePixel n ≤ n.toNat := by
  simp only [storePixel]; omega

theorem weightSum_append_single (l : List Contrib) (c : Contrib) :
    weightSum (l ++ [c]) = weightSum l + c.weight := by
  simp [weightSum]

theorem bumpAt_weightSum (l : List Contrib) :
    ∀ (k : ℕ) (d : ℚ), k < l.length → weightSum (bumpAt l k d) = weightSum l + d := by
  induction l with
  | nil => intro k d h; simp at h
  | cons c cs ih =>
    intro k d h
    cases k with
    | zero => simp [bumpAt, weightSum]; ring
    | succ k =>
      simp only [bumpAt, weightSum, List.map_cons, List.sum_cons]
      rw [show ((bumpAt cs k d).map Contrib.weight).sum = weightSum (bumpAt cs k d) from rfl,
        ih k d (by simpa using h)]
      simp [weightSum]; ring

theorem bumpAt_length (l : List Contrib) :
    ∀ (k : ℕ) (d : ℚ), (bumpAt l k d).length = l.length := by
  induction l with
  | nil => intro k d; rfl
  | cons c cs ih =>
    intro k d
    cases k with
    | zero => simp [bumpAt]
    | succ k => simp [bumpAt, ih]

theorem bumpAt_pixel_mem (l : List Contrib) :
    ∀ (k : ℕ) (d : ℚ) (c : Contrib), c ∈ bumpAt l k d →
      c.pixel ∈ l.map Contrib.pixel := by
  induction l with
  | nil => intro k d c h; simp [bumpAt] at h
  | cons a as ih =>
    intro k d c h
    cases k with
    | zero =>
      simp only [bumpAt, List.mem_cons] at h
      rcases h with h | h
      · subst h; simp
      · simp only [List.map_cons, List.mem_cons]
        exact Or.inr (List.mem_map_of_mem Contrib.pixel h)
    | succ k =>
      simp only [bumpAt, List.mem_cons] at h
      rcases h with h | h
      · subst h; simp
      · simp only [List.map_cons, List.mem_cons]
        exact Or.inr (ih k d c h)

theorem buildStep_ok (src_w : ℤ) (hw : 0 < src_w) (op : Boundary_Op) (wf : ℤ → ℚ)
    (a : BuildAcc) (j : ℤ) (ha : BuildAccOk src_w a) :
    BuildAccOk src_w (buildStep src_w op wf a j) := by
  obtain ⟨h1, h2, h3⟩ := ha
  simp only [buildStep]
  by_cases hz : wf j = 0
  · simp [hz]; exact ⟨h1, h2, h3⟩
  · simp only [hz, if_false]
    refine ⟨?_, ?_, ?_⟩
    · simp only [weightSum_append_single, h1]
    · by_cases hm : a.max_w < wf j
      · simp [hm]
      · simp only [hm, if_false]
        rcases h2 with h2 | h2
        · exact Or.inl h2
        · exact Or.inr ⟨h2.1, by simp; omega⟩
    · intro c hc
      rcases List.mem_append.1 hc with hc | hc
      · exact h3 c hc
      · simp only [List.mem_singleton] at hc
        subst hc
        have hb := reflect_nonneg_lt j src_w op hw
        have := storePixel_le_toNat _ hb.1
        simp only
        omega

theorem foldl_buildStep_ok (src_w : ℤ) (hw : 0 < src_w) (op : Boundary_Op) (wf : ℤ → ℚ)
    (cands : List ℤ) :
    ∀ (a : BuildAcc), BuildAccOk src_w a →
      BuildAccOk src_w (cands.foldl (buildStep src_w op wf) a) := by
  induction cands with
  | nil => intro a ha; exact ha
  | cons j js ih =>
    intro a ha
    exact ih _ (buildStep_ok src_w hw op wf a j ha)

theorem buildAccOf_ok (src_w : ℤ) (hw : 0 < src_w) (op : Boundary_Op) (f : ℚ → ℚ)
    (xscale src_ofs half_width oo mult : ℚ) (i : ℕ) :
    BuildAccOk src_w (buildAccOf src_w op f xscale src_ofs half_width oo mult i) :=
  foldl_buildStep_ok src_w hw op _ _ _ ⟨by simp [weightSum], Or.inl rfl, by simp⟩

theorem buildOne_ok (src_w : ℤ) (hw : 0 < src_w) (op : Boundary_Op) (f : ℚ → ℚ)
    (xscale src_ofs half_width oo mult : ℚ) (i : ℕ) (l : List Contrib)
    (h : buildOne src_w op f xscale src_ofs half_width oo mult i = some l) :
    weightSum l = 1 ∧ l ≠ [] ∧ ∀ c ∈ l, (c.pixel : ℤ) < src_w := by
  simp only [buildOne] at h
  obtain ⟨hsum, hmax, hpix⟩ :=
    buildAccOf_ok src_w hw op f xscale src_ofs half_width oo mult i
  set acc := buildAccOf src_w op f xscale src_ofs half_width oo mult i with hacc
  by_cases hg : acc.max_k = -1 ∨ acc.lst.length = 0
  · rw [if_pos hg] at h
    exact absurd h (by simp)
  · rw [if_neg hg] at h
    have hmk : 0 ≤ acc.max_k ∧ acc.max_k.toNat < acc.lst.length := by
      rcases hmax with hm | hm
      · exact absurd (Or.inl hm) hg
      · exact hm
    by_cases ht : acc.tw ≠ 1
    · rw [if_pos ht, Option.some.injEq] at h
      subst h
      refine ⟨?_, ?_, ?_⟩
      · rw [bumpAt_weightSum _ _ _ hmk.2, hsum]; ring
      · intro hnil
        have hlen := bumpAt_length acc.lst acc.max_k.toNat (1 - acc.tw)
        rw [hnil] at hlen
        simp only [List.length_nil] at hlen
        omega
      · intro c hc
        have hmem := bumpAt_pixel_mem acc.lst acc.max_k.toNat (1 - acc.tw) c hc
        rcases List.mem_map.1 hmem with ⟨c', hc', hcc⟩
        rw [← hcc]
        exact hpix c' hc'
    · rw [if_neg ht, Option.some.injEq] at h
      push_neg at ht
      subst h
      refine ⟨by rw [hsum, ht], ?_, hpix⟩
      intro hnil
      exact hg (Or.inr (by rw [hnil]; rfl))

theorem buildAll_mem (g : ℕ → Option (List Contrib)) :
    ∀ (li : List ℕ) (t : List (List Contrib)), buildAll g li = some t →
      ∀ l ∈ t, ∃ i ∈ li, g i = some l := by
  intro li
  induction li with
  | nil => intro t h l hl; simp [buildAll] at h; subst h; simp at hl
  | cons i is ih =>
    intro t h l hl
    simp only [buildAll] at h
    rcases hgi : g i with _ | l₀ <;> rw [hgi] at h
    · simp at h
    · rcases hrest : buildAll g is with _ | t₀ <;> rw [hrest] at h
      · simp at h
      · simp only [Option.some.injEq] at h
        subst h
        rcases List.mem_cons.1 hl with hl | hl
        · exact ⟨i, List.mem_cons_self i is, by rw [hgi, hl]⟩
        · rcases ih t₀ hrest l hl with ⟨i', hi', hg'⟩
          exact ⟨i', List.mem_cons_of_mem i hi', hg'⟩

theorem buildAll_length (g : ℕ → Option (List Contrib)) :
    ∀ (li : List ℕ) (t : List (List Contrib)), buildAll g li = some t →
      t.length = li.length := by
  intro li
  induction li with
  | nil => intro t h; simp [buildAll] at h; subst h; rfl
  | cons i is ih =>
    intro t h
    simp only [buildAll] at h
    rcases hgi : g i with _ | l₀ <;> rw [hgi] at h
    · simp at h
    · rcases hrest : buildAll g is with _ | t₀ <;> rw [hrest] at h
      · simp at h
      · simp only [Option.some.injEq] at h
        subst h
        simp [ih t₀ hrest]

theorem buildAll_of_all_some (g : ℕ → Option (List Contrib)) (f : ℕ → List Contrib) :
    ∀ (li : List ℕ), (∀ i ∈ li, g i = some (f i)) →
      buildAll g li = some (li.map f) := by
  intro li
  induction li with
  | nil => intro _; rfl
  | cons i is ih =>
    intro h
    simp only [buildAll, h i (List.mem_cons_self i is),
      ih (fun j hj => h j (List.mem_cons_of_mem i hj)), List.map_cons]

/-- Structural characterisation of a successful `make_clist`: every list in
the table comes from `buildOne`. -/
theorem make_clist_mem (src_w dst_w : ℕ) (op : Boundary_Op) (f : ℚ → ℚ)
    (support scale ofs : ℚ) (t : List (List Contrib))
    (h : make_clist src_w dst_w op f support scale ofs = some t) :
    ∀ l ∈ t, ∃ i ∈ List.range dst_w,
      buildOne (src_w : ℤ) op f (clistXscale src_w dst_w) ofs
        (clistHalfWidth src_w dst_w support scale) (1 / scale)
        (clistMult src_w dst_w) i = some l := by
  simp only [make_clist] at h
  split_ifs at h with htot
  exact buildAll_mem _ _ t h

theorem make_clist_length (src_w dst_w : ℕ) (op : Boundary_Op) (f : ℚ → ℚ)
    (support scale ofs : ℚ) (t : List (List Contrib))
    (h : make_clist src_w dst_w op f support scale ofs = some t) :
    t.length = dst_w := by
  simp only [make_clist] at h
  split_ifs at h with htot
  rw [buildAll_length _ _ t h, List.length_range]

theorem bufYs_nil : bufYs [] = [] := rfl

theorem bufYs_cons_none (rest : List Slot) : bufYs (none :: rest) = bufYs rest := rfl

theorem bufYs_cons_some (y : ℕ) (d : List Sample) (rest : List Slot) :
    bufYs (some (y, d) :: rest) = y :: bufYs rest := rfl

theorem bufYs_replicate_none (n : ℕ) : bufYs (List.replicate n none) = [] := by
  induction n with
  | zero => rfl
  | succ n ih => simpa [List.replicate_succ, bufYs_cons_none] using ih

theorem lookupRow_eq (cache : ℕ → List Sample) :
    ∀ (buf : List Slot) (p : ℕ), p ∈ bufYs buf →
      (∀ y d, (some (y, d) : Slot) ∈ buf → d = cache y) →
      lookupRow buf p = some (cache p) := by
  intro buf
  induction buf with
  | nil => intro p hp _; simp [bufYs_nil] at hp
  | cons sl rest ih =>
    intro p hp hdata
    match sl with
    | none =>
      rw [bufYs_cons_none] at hp
      exact ih p hp (fun y d hm => hdata y d (List.mem_cons_of_mem _ hm))
    | some (y, d) =>
      rw [bufYs_cons_some] at hp
      by_cases hy : y = p
      · subst hy
        have := hdata y d (List.mem_cons_self _ _)
        simp [lookupRow, this]
      · simp only [lookupRow, hy, if_false]
        rcases List.mem_cons.1 hp with hp | hp
        · exact absurd hp.symm hy
        · exact ih p hp (fun y' d' hm => hdata y' d' (List.mem_cons_of_mem _ hm))

theorem storeRow_isSome (y : ℕ) (d : List Sample) :
    ∀ (buf : List Slot), (bufYs buf).length < buf.length →
      ∃ buf', storeRow buf y d = some buf' := by
  intro buf
  induction buf with
  | nil => intro h; simp [bufYs_nil] at h
  | cons sl rest ih =>
    intro h
    match sl with
    | none => exact ⟨some (y, d) :: rest, rfl⟩
    | some s =>
      rw [bufYs_cons_some s.1 s.2, List.length_cons, List.length_cons] at h
      rcases ih (by omega) with ⟨r, hr⟩
      exact ⟨some s :: r, by simp [storeRow, hr]⟩

theorem storeRow_none_of_full (y : ℕ) (d : List Sample) :
    ∀ (buf : List Slot), (∀ sl ∈ buf, sl ≠ none) → storeRow buf y d = none := by
  intro buf
  induction buf with
  | nil => intro _; rfl
  | cons sl rest ih =>
    intro h
    match sl with
    | none => exact absurd rfl (h none (List.mem_cons_self _ _))
    | some s =>
      simp only [storeRow, ih (fun sl hm => h sl (List.mem_cons_of_mem _ hm)),
        Option.map_none']

theorem storeRow_spec (y : ℕ) (d : List Sample) :
    ∀ (buf buf' : List Slot), storeRow buf y d = some buf' →
      buf'.length = buf.length ∧
      (∀ q, q ∈ bufYs buf' ↔ (q = y ∨ q ∈ bufYs buf)) ∧
      ((bufYs buf).Nodup → y ∉ bufYs buf → (bufYs buf').Nodup) ∧
      (∀ y' d', (some (y', d') : Slot) ∈ buf' →
        (y' = y ∧ d' = d) ∨ (some (y', d') : Slot) ∈ buf) := by
  intro buf
  induction buf with
  | nil => intro buf' h; simp [storeRow] at h
  | cons sl rest ih =>
    intro buf' h
    match sl with
    | none =>
      simp only [storeRow, Option.some.injEq] at h
      subst h
      refine ⟨by simp, ?_, ?_, ?_⟩
      · intro q; rw [bufYs_cons_some, bufYs_cons_none]; simp
      · intro hnd hy
        rw [bufYs_cons_none] at hnd hy
        rw [bufYs_cons_some]
        exact List.nodup_cons.2 ⟨hy, hnd⟩
      · intro y' d' hm
        rcases List.mem_cons.1 hm with hm | hm
        · have : y' = y ∧ d' = d := by
            have := hm
            simp only [Option.some.injEq, Prod.mk.injEq] at this
            exact this
          exact Or.inl this
        · exact Or.inr (List.mem_cons_of_mem _ hm)
    | some s =>
      simp only [storeRow] at h
      rcases hrest : storeRow rest y d with _ | r <;> rw [hrest] at h
      · simp at h
      · simp only [Option.map_some', Option.some.injEq] at h
        subst h
        obtain ⟨hl, hmem, hnd, hdat⟩ := ih r hrest
        refine ⟨by simp [hl], ?_, ?_, ?_⟩
        · intro q
          rw [show (some s : Slot) = some (s.1, s.2) from rfl, bufYs_cons_some,
            bufYs_cons_some]
          constructor
          · intro hq
            rcases List.mem_cons.1 hq with hq | hq
            · exact Or.inr (hq ▸ List.mem_cons_self _ _)
            · rcases (hmem q).1 hq with hq | hq
              · exact Or.inl hq
              · exact Or.inr (List.mem_cons_of_mem _ hq)
          · intro hq
            rcases hq with hq | hq
            · exact List.mem_cons_of_mem _ ((hmem q).2 (Or.inl hq))
            · rcases List.mem_cons.1 hq with hq | hq
              · exact hq ▸ List.mem_cons_self _ _
              · exact List.mem_cons_of_mem _ ((hmem q).2 (Or.inr hq))
        · intro hnd0 hy0
          rw [show (some s : Slot) = some (s.1, s.2) from rfl, bufYs_cons_some] at hnd0 hy0 ⊢
          rw [List.nodup_cons] at hnd0
          refine List.nodup_cons.2 ⟨?_, hnd hnd0.2 (fun hm => hy0 (List.mem_cons_of_mem _ hm))⟩
          intro hm
          rcases (hmem s.1).1 hm with hm | hm
          · exact hy0 (hm ▸ List.mem_cons_self _ _)
          · exact hnd0.1 hm
        · intro y' d' hm
          rcases List.mem_cons.1 hm with hm | hm
          · exact Or.inr (hm ▸ List.mem_cons_self _ _)
          · rcases hdat y' d' hm with hm | hm
            · exact Or.inl hm
            · exact Or.inr (List.mem_cons_of_mem _ hm)

theorem clearRow_spec (p : ℕ) :
    ∀ (buf : List Slot), (bufYs buf).Nodup →
      (clearRow buf p).length = buf.length ∧
      (∀ q, q ∈ bufYs (clearRow buf p) ↔ (q ≠ p ∧ q ∈ bufYs buf)) ∧
      (bufYs (clearRow buf p)).Nodup ∧
      (∀ y' d', (some (y', d') : Slot) ∈ clearRow buf p →
        (some (y', d') : Slot) ∈ buf) := by
  intro buf
  induction buf with
  | nil => intro _; exact ⟨rfl, by simp [clearRow, bufYs_nil], by simp [clearRow, bufYs_nil], by simp [clearRow]⟩
  | cons sl rest ih =>
    intro hnd
    match sl with
    | none =>
      rw [bufYs_cons_none] at hnd
      obtain ⟨hl, hmem, hnd', hdat⟩ := ih hnd
      refine ⟨by simp [clearRow, hl], ?_, ?_, ?_⟩
      · intro q
        show q ∈ bufYs (none :: clearRow rest p) ↔ _
        rw [bufYs_cons_none, bufYs_cons_none]
        exact hmem q
      · show (bufYs (none :: clearRow rest p)).Nodup
        rw [bufYs_cons_none]; exact hnd'
      · intro y' d' hm
        show (some (y', d') : Slot) ∈ none :: rest
        rcases List.mem_cons.1 hm with hm | hm
        · exact absurd hm (by simp)
        · exact List.mem_cons_of_mem _ (hdat y' d' hm)
    | some (y, d) =>
      rw [bufYs_cons_some] at hnd
      rw [List.nodup_cons] at hnd
      by_cases hy : y = p
      · subst hy
        refine ⟨by simp [clearRow], ?_, ?_, ?_⟩
        · intro q
          simp only [clearRow, if_pos rfl, bufYs_cons_none, bufYs_cons_some]
          constructor
          · intro hq
            exact ⟨fun hqp => hnd.1 (hqp ▸ hq), List.mem_cons_of_mem _ hq⟩
          · intro ⟨hqp, hq⟩
            rcases List.mem_cons.1 hq with hq | hq
            · exact absurd hq hqp
            · exact hq
        · simp only [clearRow, if_pos rfl, bufYs_cons_none]
          exact hnd.2
        · intro y' d' hm
          simp only [clearRow, if_pos rfl] at hm
          rcases List.mem_cons.1 hm with hm | hm
          · exact absurd hm (by simp)
          · exact List.mem_cons_of_mem _ hm
      · obtain ⟨hl, hmem, hnd', hdat⟩ := ih hnd.2
        refine ⟨by simp [clearRow, hy, hl], ?_, ?_, ?_⟩
        · intro q
          simp only [clearRow, hy, if_false, bufYs_cons_some]
          constructor
          · intro hq
            rcases List.mem_cons.1 hq with hq | hq
            · exact ⟨hq ▸ hy, hq ▸ List.mem_cons_self _ _⟩
            · obtain ⟨h1, h2⟩ := (hmem q).1 hq
              exact ⟨h1, List.mem_cons_of_mem _ h2⟩
          · intro ⟨hqp, hq⟩
            rcases List.mem_cons.1 hq with hq | hq
            · exact hq ▸ List.mem_cons_self _ _
            · exact List.mem_cons_of_mem _ ((hmem q).2 ⟨hqp, hq⟩)
        · simp only [clearRow, hy, if_false, bufYs_cons_some]
          refine List.nodup_cons.2 ⟨?_, hnd'⟩
          intro hm
          exact hnd.1 ((hmem y).1 hm).2
        · intro y' d' hm
          simp only [clearRow, hy, if_false] at hm
          rcases List.mem_cons.1 hm with hm | hm
          · exact hm ▸ List.mem_cons_self _ _
          · exact List.mem_cons_of_mem _ (hdat y' d' hm)

/-- A list of distinct naturals all below `n` has at most `n` elements. -/
theorem nodup_lt_length_le (l : List ℕ) (n : ℕ) (hnd : l.Nodup)
    (hlt : ∀ x ∈ l, x < n) : l.length ≤ n := by
  have hsub : l ⊆ List.range n := fun x hx => List.mem_range.2 (hlt x hx)
  have := (List.subperm_of_subset hnd hsub).length_le
  simpa using this

theorem count0_eq_consumed (cy : List (List Contrib)) (h p : ℕ) :
    count0 cy h p = consumed cy 0 h p := by
  unfold count0 consumed occP
  rw [Finset.range_eq_Ico]

theorem consumed_self (cy : List (List Contrib)) (a p : ℕ) :
    consumed cy a a p = 0 := by
  simp [consumed]

theorem consumed_succ (cy : List (List Contrib)) (a b p : ℕ) (hab : a ≤ b) :
    consumed cy a (b + 1) p = consumed cy a b p + occP p (cy.getD b []) :=
  Finset.sum_Ico_succ_top hab _

theorem consumed_add_occ_le_count0 (cy : List (List Contrib)) (a b h p : ℕ)
    (hab : a ≤ b) (hbh : b < h) :
    consumed cy a b p + occP p (cy.getD b []) ≤ count0 cy h p := by
  rw [← consumed_succ cy a b p hab, count0_eq_consumed]
  unfold consumed
  apply Finset.sum_le_sum_of_subset
  intro x hx
  simp only [Finset.mem_Ico] at hx ⊢
  omega

theorem occP_append (p : ℕ) (l₁ l₂ : List Contrib) :
    occP p (l₁ ++ l₂) = occP p l₁ + occP p l₂ := by
  simp [occP, List.countP_append]

theorem occP_single (p : ℕ) (c : Contrib) :
    occP p [c] = if c.pixel = p then 1 else 0 := by
  by_cases h : c.pixel = p <;> simp [occP, List.countP_cons, h]

theorem occP_le_of_mem (p : ℕ) (c : Contrib) (l : List Contrib) (hc : c ∈ l)
    (hp : c.pixel = p) : 1 ≤ occP p l := by
  rcases List.append_of_mem hc with ⟨l₁, l₂, rfl⟩
  rw [occP_append]
  have h1 : 1 ≤ occP p (c :: l₂) := by
    rw [show c :: l₂ = [c] ++ l₂ from rfl, occP_append, occP_single, if_pos hp]
    omega
  omega

theorem Frz_refl (s : EngineState) : Frz s s :=
  ⟨rfl, rfl, rfl, rfl, rfl, rfl, rfl, rfl, rfl, rfl, rfl, rfl, rfl, rfl, rfl⟩

theorem Frz_trans (s₁ s₂ s₃ : EngineState) (h₁ : Frz s₁ s₂) (h₂ : Frz s₂ s₃) :
    Frz s₁ s₃ := by
  obtain ⟨a1, a2, a3, a4, a5, a6, a7, a8, a9, a10, a11, a12, a13, a14, a15⟩ := h₁
  obtain ⟨b1, b2, b3, b4, b5, b6, b7, b8, b9, b10, b11, b12, b13, b14, b15⟩ := h₂
  exact ⟨b1.trans a1, b2.trans a2, b3.trans a3, b4.trans a4, b5.trans a5,
    b6.trans a6, b7.trans a7, b8.trans a8, b9.trans a9, b10.trans a10,
    b11.trans a11, b12.trans a12, b13.trans a13, b14.trans a14, b15.trans a15⟩

theorem cacheFun_congr (rows : List (List Sample)) (s s' : EngineState)
    (h : Frz s s') : cacheFun rows s' = cacheFun rows s := by
  obtain ⟨-, -, -, -, h5, h6, -, -, h9, -, h11, h12, -, -, -⟩ := h
  funext p
  simp [cacheFun, h5, h6, h9, h11, h12]

theorem partialTmp_congr (rows : List (List Sample)) (s s' : EngineState)
    (h : Frz s s') (l : List Contrib) : partialTmp rows s' l = partialTmp rows s l := by
  have h12 : s'.inter_x = s.inter_x := h.2.2.2.2.2.2.2.2.2.2.2.1
  simp [partialTmp, cacheFun_congr rows s s' h, h12]

theorem postprocess_congr (s s' : EngineState) (h : Frz s s') (tmp : List Sample) :
    postprocess s' tmp = postprocess s tmp := by
  obtain ⟨-, -, -, -, h5, h6, -, -, h9, -, h11, -, h13, h14, -⟩ := h
  simp [postprocess, h5, h6, h9, h11, h13, h14]

theorem outRow_congr (rows : List (List Sample)) (s s' : EngineState)
    (h : Frz s s') (d : ℕ) : outRow rows s' d = outRow rows s d := by
  have h10 := h.2.2.2.2.2.2.2.2.2.1
  simp [outRow, partialTmp_congr rows s s' h, postprocess_congr s s' h, h10]

theorem partialTmp_append_single (rows : List (List Sample)) (s : EngineState)
    (l : List Contrib) (c : Contrib) :
    partialTmp rows s (l ++ [c]) =
      add_rows (partialTmp rows s l)
        (scale_row c.weight (cacheFun rows s c.pixel) s.inter_x) := by
  simp [partialTmp, List.foldl_append]

theorem InvAux_of_ex_eq (rows : List (List Sample)) (s : EngineState)
    (ex ex' : ℕ → ℕ) (h : InvAux rows s ex) (he : ∀ p, ex p = ex' p) :
    InvAux rows s ex' where
  hlen_y := h.hlen_y
  hbe := h.hbe
  hde := h.hde
  heh := h.heh
  hsy := h.hsy
  hcap := h.hcap
  hpix := h.hpix
  hcount := fun p => by rw [h.hcount p, he p]
  hflag := h.hflag
  hbuf := h.hbuf

/-! ## Transition lemmas -/

theorem get_line_none_stuck (rows : List (List Sample)) (s : EngineState)
    (hInv : Inv rows s)
    (hmiss : ∃ c ∈ s.clist_y.getD s.cur_dst_y [], s.cur_src_y ≤ c.pixel) :
    get_line s = (none, s) := by
  by_cases hterm : s.cur_dst_y = s.end_y
  · simp [get_line, hterm]
  · rcases hmiss with ⟨c, hc, hge⟩
    have hflag : s.y_flag c.pixel = false := by
      rcases hb : s.y_flag c.pixel with _ | _
      · rfl
      · have := (hInv.hflag c.pixel).1 hb
        omega
    have hall : (s.clist_y.getD s.cur_dst_y []).all (fun c => s.y_flag c.pixel) = false := by
      rcases hval : (s.clist_y.getD s.cur_dst_y []).all (fun c => s.y_flag c.pixel) with _ | _
      · rfl
      · have := List.all_eq_true.1 hval c hc
        rw [hflag] at this
        exact absurd this (by simp)
    simp only [get_line, hterm, if_false, hall]
    simp

theorem put_line_spec (rows : List (List Sample)) (s : EngineState)
    (hInv : Inv rows s) (hk : s.cur_src_y < s.src_h) :
    ∃ s', put_line s (rows.getD s.cur_src_y []) = (true, s') ∧ Inv rows s' ∧
      Frz s s' ∧ s'.cur_src_y = s.cur_src_y + 1 ∧ s'.cur_dst_y = s.cur_dst_y ∧
      s'.status = s.status := by
  have hnotle : ¬ s.src_h ≤ s.cur_src_y := by omega
  by_cases hc : s.y_count s.cur_src_y = 0
  · -- row contributes to no destination line: silently skipped
    refine ⟨{ s with cur_src_y := s.cur_src_y + 1 }, ?_, ?_, Frz_refl _, rfl, rfl, rfl⟩
    · simp [put_line, hnotle, hc]
    · refine ⟨hInv.hlen_y, hInv.hbe, hInv.hde, hInv.heh, ?_, hInv.hcap, hInv.hpix,
        hInv.hcount, ?_, hInv.hbuf⟩
      · show s.cur_src_y + 1 ≤ s.src_h
        omega
      · intro p
        show s.y_flag p = true ↔ p < s.cur_src_y + 1 ∧ s.y_count p ≠ 0
        constructor
        · intro hfl
          obtain ⟨h1, h2⟩ := (hInv.hflag p).1 hfl
          exact ⟨by omega, h2⟩
        · rintro ⟨h1, h2⟩
          by_cases hp : p = s.cur_src_y
          · rw [hp] at h2
            exact absurd hc h2
          · exact (hInv.hflag p).2 ⟨by omega, h2⟩
  · -- cache the row in the first free slot
    have hklt : ∀ q ∈ bufYs s.scan_buf, q < s.cur_src_y := by
      intro q hq
      exact ((hInv.hflag q).1 ((hInv.hbuf.mem_iff q).1 hq)).1
    have hcapa : (bufYs s.scan_buf).length < s.scan_buf.length := by
      have h1 := nodup_lt_length_le (bufYs s.scan_buf) s.cur_src_y hInv.hbuf.nodup hklt
      have h2 := hInv.hcap
      omega
    obtain ⟨buf', hst⟩ := storeRow_isSome s.cur_src_y
      (if s.delay_x
        then (List.range s.inter_x).map (fun i => (rows.getD s.cur_src_y []).getD i 0)
        else resample_x_row s.clist_x s.beg_x s.end_x (rows.getD s.cur_src_y []))
      s.scan_buf hcapa
    obtain ⟨hlen, hmem, hnd, hdat⟩ := storeRow_spec _ _ _ _ hst
    have hknot : s.cur_src_y ∉ bufYs s.scan_buf := by
      intro hm
      exact absurd (hklt _ hm) (by omega)
    refine ⟨{ s with
        y_flag := Function.update s.y_flag s.cur_src_y true
        scan_buf := buf'
        cur_src_y := s.cur_src_y + 1 }, ?_, ?_,
      ⟨rfl, rfl, rfl, rfl, rfl, rfl, rfl, rfl, rfl, rfl, rfl, rfl, rfl, rfl, hlen⟩,
      rfl, rfl, rfl⟩
    · simp only [put_line, hnotle, if_false, hc, hst]
    · refine ⟨hInv.hlen_y, hInv.hbe, hInv.hde, hInv.heh, ?_, ?_, hInv.hpix,
        hInv.hcount, ?_, ?_⟩
      · show s.cur_src_y + 1 ≤ s.src_h
        omega
      · show s.src_h ≤ buf'.length
        rw [hlen]
        exact hInv.hcap
      · intro p
        show Function.update s.y_flag s.cur_src_y true p = true ↔
          p < s.cur_src_y + 1 ∧ s.y_count p ≠ 0
        by_cases hp : p = s.cur_src_y
        · rw [hp, Function.update_same]
          exact ⟨fun _ => ⟨by omega, hc⟩, fun _ => rfl⟩
        · rw [Function.update_noteq hp, hInv.hflag p]
          constructor
          · rintro ⟨h1, h2⟩
            exact ⟨by omega, h2⟩
          · rintro ⟨h1, h2⟩
            exact ⟨by omega, h2⟩
      · refine ⟨hnd hInv.hbuf.nodup hknot, ?_, ?_⟩
        · intro q
          show q ∈ bufYs buf' ↔ Function.update s.y_flag s.cur_src_y true q = true
          rw [hmem q]
          by_cases hq : q = s.cur_src_y
          · rw [hq, Function.update_same]
            simp
          · rw [Function.update_noteq hq, ← hInv.hbuf.mem_iff q]
            constructor
            · intro h'
              rcases h' with h' | h'
              · exact absurd h' hq
              · exact h'
            · exact Or.inr
        · intro y d hm
          rcases hdat y d hm with ⟨hy, hd⟩ | hm'
          · subst hy
            subst hd
            rfl
          · exact hInv.hbuf.data y d hm'

/-- The contributor loop of `resample_y`: starting from a state that has
already consumed the prefix `pre` of the current destination row's list,
folding over `post` accumulates the weighted cached rows and performs the
decrement/evict bookkeeping, preserving the invariant. -/
theorem resample_y_fold (rows : List (List Sample)) :
    ∀ (post pre : List Contrib) (s : EngineState),
      InvAux rows s (fun p => occP p pre) →
      s.cur_dst_y < s.end_y →
      s.clist_y.getD s.cur_dst_y [] = pre ++ post →
      (∀ c ∈ post, c.pixel < s.cur_src_y) →
      ∃ s', post.foldl resample_y_step (s, partialTmp rows s pre) =
          (s', partialTmp rows s (pre ++ post)) ∧
        InvAux rows s' (fun p => occP p (pre ++ post)) ∧ Frz s s' ∧
        s'.cur_src_y = s.cur_src_y ∧ s'.cur_dst_y = s.cur_dst_y ∧
        s'.status = s.status := by
  intro post
  induction post with
  | nil =>
    intro pre s hInv hlt hcl hpost
    refine ⟨s, by simp, ?_, Frz_refl s, rfl, rfl, rfl⟩
    exact InvAux_of_ex_eq rows s _ _ hInv (fun p => by rw [List.append_nil])
  | cons c post' ih =>
    intro pre s hInv hlt hcl hpost
    have hplt : c.pixel < s.cur_src_y := hpost c (List.mem_cons_self c post')
    have hddh : s.cur_dst_y < s.dst_h := lt_of_lt_of_le hlt hInv.heh
    -- the contributor still has pending consumers, so its flag and slot are live
    have hocc : consumed s.clist_y s.beg_y s.cur_dst_y c.pixel +
        occP c.pixel (pre ++ c :: post') ≤ count0 s.clist_y s.dst_h c.pixel := by
      have := consumed_add_occ_le_count0 s.clist_y s.beg_y s.cur_dst_y s.dst_h c.pixel
        hInv.hbe hddh
      rwa [hcl] at this
    have hocc2 : 1 ≤ occP c.pixel (c :: post') :=
      occP_le_of_mem c.pixel c (c :: post') (List.mem_cons_self c post') rfl
    have hocc3 : occP c.pixel (pre ++ c :: post') =
        occP c.pixel pre + occP c.pixel (c :: post') := occP_append _ _ _
    have hcnt_ge : (1 : ℤ) ≤ s.y_count c.pixel := by
      rw [hInv.hcount c.pixel]
      omega
    have hfl : s.y_flag c.pixel = true :=
      (hInv.hflag c.pixel).2 ⟨hplt, by omega⟩
    have hmemb : c.pixel ∈ bufYs s.scan_buf := (hInv.hbuf.mem_iff c.pixel).2 hfl
    have hlook : lookupRow s.scan_buf c.pixel = some (cacheFun rows s c.pixel) :=
      lookupRow_eq (cacheFun rows s) s.scan_buf c.pixel hmemb hInv.hbuf.data
    by_cases hcnt : s.y_count c.pixel - 1 = 0
    · -- the last consumer: clear the flag and free the slot
      obtain ⟨hcl_len, hcl_mem, hcl_nd, hcl_dat⟩ :=
        clearRow_spec c.pixel s.scan_buf hInv.hbuf.nodup
      refine ?_
      set s₂ : EngineState := { s with
        y_count := Function.update s.y_count c.pixel (s.y_count c.pixel - 1)
        y_flag := Function.update s.y_flag c.pixel false
        scan_buf := clearRow s.scan_buf c.pixel } with hs₂
      have hstep : resample_y_step (s, partialTmp rows s pre) c =
          (s₂, partialTmp rows s (pre ++ [c])) := by
        simp only [resample_y_step, hlook, Option.getD_some, partialTmp_append_single]
        rw [if_pos hcnt]
      have hfrz₂ : Frz s s₂ :=
        ⟨rfl, rfl, rfl, rfl, rfl, rfl, rfl, rfl, rfl, rfl, rfl, rfl, rfl, rfl, hcl_len⟩
      have hinv₂ : InvAux rows s₂ (fun p => occP p (pre ++ [c])) := by
        refine ⟨hInv.hlen_y, hInv.hbe, hInv.hde, hInv.heh, hInv.hsy, ?_,
          hInv.hpix, ?_, ?_, ?_⟩
        · show s.src_h ≤ (clearRow s.scan_buf c.pixel).length
          rw [hcl_len]
          exact hInv.hcap
        · intro q
          show Function.update s.y_count c.pixel (s.y_count c.pixel - 1) q =
            (count0 s.clist_y s.dst_h q : ℤ) -
            (consumed s.clist_y s.beg_y s.cur_dst_y q : ℤ) -
            (occP q (pre ++ [c]) : ℤ)
          by_cases hq : q = c.pixel
          · subst hq
            rw [Function.update_same, hInv.hcount c.pixel, occP_append, occP_single,
              if_pos rfl]
            push_cast
            ring
          · rw [Function.update_noteq hq, hInv.hcount q, occP_append, occP_single,
              if_neg (fun h => hq h.symm)]
            push_cast
            ring
        · intro q
          show Function.update s.y_flag c.pixel false q = true ↔
            q < s.cur_src_y ∧
            Function.update s.y_count c.pixel (s.y_count c.pixel - 1) q ≠ 0
          by_cases hq : q = c.pixel
          · subst hq
            rw [Function.update_same, Function.update_same]
            constructor
            · intro h'
              exact absurd h' (by simp)
            · rintro ⟨-, h2⟩
              exact absurd hcnt h2
          · rw [Function.update_noteq hq, Function.update_noteq hq]
            exact hInv.hflag q
        · refine ⟨hcl_nd, ?_, ?_⟩
          · intro q
            show q ∈ bufYs (clearRow s.scan_buf c.pixel) ↔
              Function.update s.y_flag c.pixel false q = true
            rw [hcl_mem q]
            by_cases hq : q = c.pixel
            · subst hq
              rw [Function.update_same]
              simp
            · rw [Function.update_noteq hq, ← hInv.hbuf.mem_iff q]
              constructor
              · exact fun h' => h'.2
              · exact fun h' => ⟨hq, h'⟩
          · intro y d hm
            exact hInv.hbuf.data y d (hcl_dat y d hm)
      obtain ⟨s', hfold', hinv', hfrz', hcs', hcd', hst'⟩ :=
        ih (pre ++ [c]) s₂ hinv₂ hlt
          (by show s.clist_y.getD s.cur_dst_y [] = (pre ++ [c]) ++ post'
              rw [hcl, List.append_assoc]
              rfl)
          (fun c' hc' => hpost c' (List.mem_cons_of_mem c hc'))
      refine ⟨s', ?_, ?_, Frz_trans s s₂ s' hfrz₂ hfrz', hcs', hcd', hst'⟩
      · rw [List.foldl_cons, hstep, ← partialTmp_congr rows s s₂ hfrz₂, hfold',
          partialTmp_congr rows s s₂ hfrz₂]
        rw [List.append_assoc]
        rfl
      · refine InvAux_of_ex_eq rows s' _ _ hinv' (fun p => ?_)
        rw [List.append_assoc]
        rfl
    · -- more consumers pending: only decrement the count
      refine ?_
      set s₂ : EngineState := { s with
        y_count := Function.update s.y_count c.pixel (s.y_count c.pixel - 1) } with hs₂
      have hstep : resample_y_step (s, partialTmp rows s pre) c =
          (s₂, partialTmp rows s (pre ++ [c])) := by
        simp only [resample_y_step, hlook, Option.getD_some, partialTmp_append_single]
        rw [if_neg hcnt]
      have hfrz₂ : Frz s s₂ := Frz_refl _
      have hinv₂ : InvAux rows s₂ (fun p => occP p (pre ++ [c])) := by
        refine ⟨hInv.hlen_y, hInv.hbe, hInv.hde, hInv.heh, hInv.hsy, hInv.hcap,
          hInv.hpix, ?_, ?_, ?_⟩
        · intro q
          show Function.update s.y_count c.pixel (s.y_count c.pixel - 1) q =
            (count0 s.clist_y s.dst_h q : ℤ) -
            (consumed s.clist_y s.beg_y s.cur_dst_y q : ℤ) -
            (occP q (pre ++ [c]) : ℤ)
          by_cases hq : q = c.pixel
          · subst hq
            rw [Function.update_same, hInv.hcount c.pixel, occP_append, occP_single,
              if_pos rfl]
            push_cast
            ring
          · rw [Function.update_noteq hq, hInv.hcount q, occP_append, occP_single,
              if_neg (fun h => hq h.symm)]
            push_cast
            ring
        · intro q
          show s.y_flag q = true ↔ q < s.cur_src_y ∧
            Function.update s.y_count c.pixel (s.y_count c.pixel - 1) q ≠ 0
          by_cases hq : q = c.pixel
          · subst hq
            rw [Function.update_same]
            constructor
            · intro _
              exact ⟨hplt, hcnt⟩
            · intro _
              exact hfl
          · rw [Function.update_noteq hq]
            exact hInv.hflag q
        · exact hInv.hbuf
      obtain ⟨s', hfold', hinv', hfrz', hcs', hcd', hst'⟩ :=
        ih (pre ++ [c]) s₂ hinv₂ hlt
          (by show s.clist_y.getD s.cur_dst_y [] = (pre ++ [c]) ++ post'
              rw [hcl, List.append_assoc]
              rfl)
          (fun c' hc' => hpost c' (List.mem_cons_of_mem c hc'))
      refine ⟨s', ?_, ?_, Frz_trans s s₂ s' hfrz₂ hfrz', hcs', hcd', hst'⟩
      · rw [List.foldl_cons, hstep, ← partialTmp_congr rows s s₂ hfrz₂, hfold',
          partialTmp_congr rows s s₂ hfrz₂]
        rw [List.append_assoc]
        rfl
      · refine InvAux_of_ex_eq rows s' _ _ hinv' (fun p => ?_)
        rw [List.append_assoc]
        rfl

/-- When every contributor of the pending destination row has been fed,
`get_line` produces exactly that row and advances the destination cursor. -/
theorem get_line_some (rows : List (List Sample)) (s : EngineState)
    (hInv : Inv rows s) (hlt : s.cur_dst_y < s.end_y)
    (hready : ∀ c ∈ s.clist_y.getD s.cur_dst_y [], c.pixel < s.cur_src_y) :
    ∃ s', get_line s = (some (outRow rows s s.cur_dst_y), s') ∧ Inv rows s' ∧
      Frz s s' ∧ s'.cur_src_y = s.cur_src_y ∧ s'.cur_dst_y = s.cur_dst_y + 1 ∧
      s'.status = s.status := by
  have hterm : s.cur_dst_y ≠ s.end_y := by omega
  have hddh : s.cur_dst_y < s.dst_h := lt_of_lt_of_le hlt hInv.heh
  have hall : (s.clist_y.getD s.cur_dst_y []).all (fun c => s.y_flag c.pixel) = true := by
    rw [List.all_eq_true]
    intro c hc
    have h1 := consumed_add_occ_le_count0 s.clist_y s.beg_y s.cur_dst_y s.dst_h
      c.pixel hInv.hbe hddh
    have h2 : 1 ≤ occP c.pixel (s.clist_y.getD s.cur_dst_y []) :=
      occP_le_of_mem c.pixel c _ hc rfl
    refine (hInv.hflag c.pixel).2 ⟨hready c hc, ?_⟩
    rw [hInv.hcount c.pixel]
    have h3 : (0 : ℤ) < (count0 s.clist_y s.dst_h c.pixel : ℤ) -
        (consumed s.clist_y s.beg_y s.cur_dst_y c.pixel : ℤ) := by
      omega
    omega
  have hinv0 : InvAux rows s (fun p => occP p []) :=
    InvAux_of_ex_eq rows s _ _ hInv (fun p => by simp [occP])
  obtain ⟨s₁, hfold, hinv₁, hfrz₁, hcs₁, hcd₁, hst₁⟩ :=
    resample_y_fold rows (s.clist_y.getD s.cur_dst_y []) [] s hinv0 hlt (by simp) hready
  have hfold' : (s.clist_y.getD s.cur_dst_y []).foldl resample_y_step
      (s, List.replicate s.inter_x 0) =
      (s₁, partialTmp rows s (s.clist_y.getD s.cur_dst_y [])) := by
    have hinit : (List.replicate s.inter_x (0 : ℚ)) = partialTmp rows s [] := rfl
    rw [hinit]
    simpa using hfold
  have hbeg₁ : s₁.beg_y = s.beg_y := hfrz₁.2.2.2.2.2.2.1
  have hend₁ : s₁.end_y = s.end_y := hfrz₁.2.2.2.2.2.2.2.1
  have hcly₁ : s₁.clist_y = s.clist_y := hfrz₁.2.2.2.2.2.2.2.2.2.1
  refine ⟨{ s₁ with cur_dst_y := s.cur_dst_y + 1 }, ?_, ?_, ?_, hcs₁, rfl, hst₁⟩
  · show get_line s = _
    simp only [get_line]
    rw [if_neg hterm, if_pos hall, hfold']
    have hout : postprocess s₁ (partialTmp rows s (s.clist_y.getD s.cur_dst_y [])) =
        outRow rows s s.cur_dst_y := by
      rw [postprocess_congr s s₁ hfrz₁]
      rfl
    rw [hout]
  · refine ⟨hinv₁.hlen_y, ?_, ?_, hinv₁.heh, hinv₁.hsy, hinv₁.hcap, hinv₁.hpix,
      ?_, ?_, ?_⟩
    · show s₁.beg_y ≤ s.cur_dst_y + 1
      rw [hbeg₁]
      have := hInv.hbe
      omega
    · show s.cur_dst_y + 1 ≤ s₁.end_y
      rw [hend₁]
      omega
    · intro p
      show s₁.y_count p = (count0 s₁.clist_y s₁.dst_h p : ℤ) -
        (consumed s₁.clist_y s₁.beg_y (s.cur_dst_y + 1) p : ℤ) - ((0 : ℕ) : ℤ)
      have h1 := hinv₁.hcount p
      rw [hcd₁, hbeg₁, hcly₁] at h1
      simp only [List.nil_append] at h1
      rw [hbeg₁, hcly₁]
      rw [consumed_succ s.clist_y s.beg_y s.cur_dst_y p hInv.hbe]
      rw [h1]
      push_cast
      ring
    · intro p
      exact hinv₁.hflag p
    · exact hinv₁.hbuf
  · refine Frz_trans s s₁ _ hfrz₁ ?_
    exact ⟨rfl, rfl, rfl, rfl, rfl, rfl, rfl, rfl, rfl, rfl, rfl, rfl, rfl, rfl, rfl⟩

/-- Glue two consecutive index ranges of a mapped family. -/
theorem range_map_glue {α : Type} (f : ℕ → α) (a b c : ℕ) (hab : a ≤ b) (hbc : b ≤ c) :
    (List.range (c - a)).map (fun k => f (a + k)) =
    (List.range (b - a)).map (fun k => f (a + k)) ++
    (List.range (c - b)).map (fun k => f (b + k)) := by
  have h1 : c - a = (b - a) + (c - b) := by omega
  rw [h1, List.range_add, List.map_append, List.map_map]
  congr 1
  apply List.map_congr_left
  intro k _
  have : a + (b - a + k) = b + k := by omega
  simp only [Function.comp_apply, this]

/-- Pulling with sufficient fuel: `drain` produces consecutive destination
rows until either the subrectangle is exhausted or a contributor is missing,
preserving the invariant. -/
theorem drain_spec (rows : List (List Sample)) :
    ∀ (fuel : ℕ) (s : EngineState), Inv rows s → s.end_y - s.cur_dst_y ≤ fuel →
      ∃ s' out, drain fuel s = (s', out) ∧ Inv rows s' ∧ Frz s s' ∧
        s'.cur_src_y = s.cur_src_y ∧ s'.status = s.status ∧
        s.cur_dst_y ≤ s'.cur_dst_y ∧
        out = (List.range (s'.cur_dst_y - s.cur_dst_y)).map
          (fun k => outRow rows s (s.cur_dst_y + k)) ∧
        (s'.cur_dst_y = s'.end_y ∨
          ∃ c ∈ s'.clist_y.getD s'.cur_dst_y [], s'.cur_src_y ≤ c.pixel) := by
  intro fuel
  induction fuel with
  | zero =>
    intro s hInv hfuel
    have hterm : s.cur_dst_y = s.end_y := by
      have := hInv.hde
      omega
    exact ⟨s, [], rfl, hInv, Frz_refl s, rfl, rfl, le_refl _, by simp, Or.inl hterm⟩
  | succ fuel ih =>
    intro s hInv hfuel
    by_cases hterm : s.cur_dst_y = s.end_y
    · have hg : get_line s = (none, s) := by simp [get_line, hterm]
      refine ⟨s, [], ?_, hInv, Frz_refl s, rfl, rfl, le_refl _, by simp, Or.inl hterm⟩
      show drain (fuel + 1) s = (s, [])
      simp [drain, hg]
    · have hlt : s.cur_dst_y < s.end_y := lt_of_le_of_ne hInv.hde hterm
      by_cases hready : ∀ c ∈ s.clist_y.getD s.cur_dst_y [], c.pixel < s.cur_src_y
      · obtain ⟨s₁, hg, hinv₁, hfrz₁, hcs₁, hcd₁, hst₁⟩ :=
          get_line_some rows s hInv hlt hready
        have hend₁ : s₁.end_y = s.end_y := hfrz₁.2.2.2.2.2.2.2.1
        have hfuel₁ : s₁.end_y - s₁.cur_dst_y ≤ fuel := by
          rw [hend₁, hcd₁]
          omega
        obtain ⟨s', out', hdrain, hinv', hfrz', hcs', hst', hmono, hout, hstop⟩ :=
          ih s₁ hinv₁ hfuel₁
        refine ⟨s', outRow rows s s.cur_dst_y :: out', ?_, hinv',
          Frz_trans s s₁ s' hfrz₁ hfrz', by rw [hcs', hcs₁], by rw [hst', hst₁],
          ?_, ?_, hstop⟩
        · show drain (fuel + 1) s = _
          simp only [drain, hg, hdrain]
        · rw [hcd₁] at hmono
          omega
        · rw [hcd₁] at hmono
          have htail : out' = (List.range (s'.cur_dst_y - (s.cur_dst_y + 1))).map
              (fun k => outRow rows s ((s.cur_dst_y + 1) + k)) := by
            rw [hout, hcd₁]
            apply List.map_congr_left
            intro k _
            exact outRow_congr rows s s₁ hfrz₁ _
          have hsplit : s'.cur_dst_y - s.cur_dst_y =
              (s'.cur_dst_y - (s.cur_dst_y + 1)) + 1 := by
            omega
          rw [htail, hsplit, List.range_succ_eq_map, List.map_cons, List.map_map]
          simp only [List.cons.injEq]
          constructor
          · rw [Nat.add_zero]
          · apply List.map_congr_left
            intro k _
            simp only [Function.comp_apply]
            congr 1
            omega
      · push_neg at hready
        obtain ⟨c, hc, hge⟩ := hready
        have hg := get_line_none_stuck rows s hInv ⟨c, hc, hge⟩
        refine ⟨s, [], ?_, hInv, Frz_refl s, rfl, rfl, le_refl _, by simp,
          Or.inr ⟨c, hc, hge⟩⟩
        show drain (fuel + 1) s = (s, [])
        simp [drain, hg]

/-- The full streaming protocol: feeding `pend` (the pending suffix of the
source rows) in order, draining after each feed, preserves the invariant and
emits exactly the destination rows that became computable. -/
theorem runRows_spec (rows : List (List Sample)) :
    ∀ (pend : List (List Sample)) (s : EngineState), Inv rows s →
      (∀ j, j < pend.length → pend.getD j [] = rows.getD (s.cur_src_y + j) []) →
      s.cur_src_y + pend.length ≤ s.src_h →
      ∃ s' out, runRows s pend = (s', out) ∧ Inv rows s' ∧ Frz s s' ∧
        s'.cur_src_y = s.cur_src_y + pend.length ∧
        s'.status = s.status ∧
        s.cur_dst_y ≤ s'.cur_dst_y ∧
        out = (List.range (s'.cur_dst_y - s.cur_dst_y)).map
          (fun k => outRow rows s (s.cur_dst_y + k)) ∧
        (pend = [] → s' = s) ∧
        (pend ≠ [] → (s'.cur_dst_y = s'.end_y ∨
          ∃ c ∈ s'.clist_y.getD s'.cur_dst_y [], s'.cur_src_y ≤ c.pixel)) := by
  intro pend
  induction pend with
  | nil =>
    intro s hInv hj hb
    exact ⟨s, [], rfl, hInv, Frz_refl s, by simp, rfl, le_refl _, by simp,
      fun _ => rfl, fun h => absurd rfl h⟩
  | cons r rs ih =>
    intro s hInv hj hb
    rw [List.length_cons] at hb
    have hk : s.cur_src_y < s.src_h := by omega
    have hr : r = rows.getD s.cur_src_y [] := by
      have h0 := hj 0 (by simp)
      simpa using h0
    obtain ⟨s₁, hput, hinv₁, hfrz₁, hcs₁, hcd₁, hst₁⟩ := put_line_spec rows s hInv hk
    obtain ⟨s₂, out₁, hdr, hinv₂, hfrz₂, hcs₂, hst₂, hmono₂, hout₁, hstop₂⟩ :=
      drain_spec rows (s₁.end_y - s₁.cur_dst_y) s₁ hinv₁ (le_refl _)
    have hsh₂ : s₂.src_h = s.src_h := by
      rw [hfrz₂.2.1, hfrz₁.2.1]
    have hj' : ∀ j, j < rs.length → rs.getD j [] = rows.getD (s₂.cur_src_y + j) [] := by
      intro j hjl
      have h2 := hj (j + 1) (by rw [List.length_cons]; omega)
      rw [List.getD_cons_succ] at h2
      rw [hcs₂, hcs₁]
      have harith : s.cur_src_y + 1 + j = s.cur_src_y + (j + 1) := by omega
      rw [harith]
      exact h2
    have hb' : s₂.cur_src_y + rs.length ≤ s₂.src_h := by
      rw [hcs₂, hcs₁, hsh₂]
      omega
    obtain ⟨s₃, out₂, hrun, hinv₃, hfrz₃, hcs₃, hst₃, hmono₃, hout₂, hnil₃, hstop₃⟩ :=
      ih s₂ hinv₂ hj' hb'
    have hfrz₁₂ : Frz s s₂ := Frz_trans s s₁ s₂ hfrz₁ hfrz₂
    refine ⟨s₃, out₁ ++ out₂, ?_, hinv₃, Frz_trans s s₂ s₃ hfrz₁₂ hfrz₃, ?_, ?_,
      ?_, ?_, by simp, ?_⟩
    · show runRows s (r :: rs) = (s₃, out₁ ++ out₂)
      simp only [runRows, hr, hput, hdr, hrun]
    · rw [hcs₃, hcs₂, hcs₁, List.length_cons]
      omega
    · rw [hst₃, hst₂, hst₁]
    · rw [hcd₁] at hmono₂
      omega
    · -- glue the two output segments
      rw [hout₁, hout₂, hcd₁]
      rw [hcd₁] at hmono₂
      have hglue := range_map_glue (outRow rows s) s.cur_dst_y s₂.cur_dst_y
        s₃.cur_dst_y hmono₂ hmono₃
      rw [hglue]
      congr 1
      · apply List.map_congr_left
        intro k _
        exact outRow_congr rows s s₁ hfrz₁ _
      · apply List.map_congr_left
        intro k _
        exact outRow_congr rows s s₂ hfrz₁₂ _
    · intro _
      by_cases hrs : rs = []
      · subst hrs
        have hs₃ : s₃ = s₂ := hnil₃ rfl
        subst hs₃
        exact hstop₂
      · exact hstop₃ hrs

/-! ## Construction lemmas -/

theorem make_clist_weightSum_one (src_w dst_w : ℕ) (op : Boundary_Op) (f : ℚ → ℚ)
    (support scale ofs : ℚ) (t : List (List Contrib)) (hw : 0 < src_w)
    (h : make_clist src_w dst_w op f support scale ofs = some t) :
    ∀ l ∈ t, weightSum l = 1 := by
  intro l hl
  obtain ⟨i, _, hb⟩ := make_clist_mem src_w dst_w op f support scale ofs t h l hl
  exact (buildOne_ok _ (by exact_mod_cast hw) _ _ _ _ _ _ _ _ _ hb).1

theorem make_clist_ne_nil (src_w dst_w : ℕ) (op : Boundary_Op) (f : ℚ → ℚ)
    (support scale ofs : ℚ) (t : List (List Contrib)) (hw : 0 < src_w)
    (h : make_clist src_w dst_w op f support scale ofs = some t) :
    ∀ l ∈ t, l ≠ [] := by
  intro l hl
  obtain ⟨i, _, hb⟩ := make_clist_mem src_w dst_w op f support scale ofs t h l hl
  exact (buildOne_ok _ (by exact_mod_cast hw) _ _ _ _ _ _ _ _ _ hb).2.1

theorem make_clist_pixel_lt (src_w dst_w : ℕ) (op : Boundary_Op) (f : ℚ → ℚ)
    (support scale ofs : ℚ) (t : List (List Contrib)) (hw : 0 < src_w)
    (h : make_clist src_w dst_w op f support scale ofs = some t) :
    ∀ l ∈ t, ∀ c ∈ l, c.pixel < src_w := by
  intro l hl c hc
  obtain ⟨i, _, hb⟩ := make_clist_mem src_w dst_w op f support scale ofs t h l hl
  have := (buildOne_ok _ (by exact_mod_cast hw) _ _ _ _ _ _ _ _ _ hb).2.2 c hc
  exact_mod_cast this

theorem construct_eq_constructed (src_w src_h dst_w dst_h : ℕ) (op : Boundary_Op)
    (lo hi : ℚ) (f : ℚ → ℚ) (support fx fy ox oy : ℚ) (sx sy sw sh max_scan : ℕ)
    (cx cy : List (List Contrib))
    (hx : make_clist src_w dst_w op f support fx ox = some cx)
    (hy : make_clist src_h dst_h op f support fy oy = some cy) :
    construct src_w src_h dst_w dst_h op lo hi f support fx fy ox oy
      sx sy sw sh max_scan =
    constructed src_w src_h dst_w dst_h lo hi sx sy sw sh max_scan cx cy := by
  simp only [construct, hx, hy]

theorem construct_status_of_x_none (src_w src_h dst_w dst_h : ℕ) (op : Boundary_Op)
    (lo hi : ℚ) (f : ℚ → ℚ) (support fx fy ox oy : ℚ) (sx sy sw sh max_scan : ℕ)
    (hx : make_clist src_w dst_w op f support fx ox = none) :
    (construct src_w src_h dst_w dst_h op lo hi f support fx fy ox oy
      sx sy sw sh max_scan).status = Status.STATUS_OUT_OF_MEMORY := by
  simp only [construct, hx]

theorem construct_okay_split (src_w src_h dst_w dst_h : ℕ) (op : Boundary_Op)
    (lo hi : ℚ) (f : ℚ → ℚ) (support fx fy ox oy : ℚ) (sx sy sw sh max_scan : ℕ)
    (hok : (construct src_w src_h dst_w dst_h op lo hi f support fx fy ox oy
      sx sy sw sh max_scan).status = Status.STATUS_OKAY) :
    ∃ cx cy, make_clist src_w dst_w op f support fx ox = some cx ∧
      make_clist src_h dst_h op f support fy oy = some cy := by
  rcases hx : make_clist src_w dst_w op f support fx ox with _ | cx
  · rw [construct_status_of_x_none _ _ _ _ _ _ _ _ _ _ _ _ _ _ _ _ _ _ hx] at hok
    exact absurd hok (by simp)
  · rcases hy : make_clist src_h dst_h op f support fy oy with _ | cy
    · simp only [construct, hx, hy] at hok
      exact absurd hok (by simp)
    · exact ⟨cx, cy, rfl, rfl⟩

theorem constructed_Inv (rows : List (List Sample))
    (src_w src_h dst_w dst_h : ℕ) (lo hi : ℚ) (sx sy sw sh max_scan : ℕ)
    (cx cy : List (List Contrib))
    (hcylen : cy.length = dst_h)
    (hpix : ∀ l ∈ cy, ∀ c ∈ l, c.pixel < src_h)
    (hcap : src_h ≤ max_scan) :
    Inv rows (constructed src_w src_h dst_w dst_h lo hi sx sy sw sh max_scan cx cy) := by
  refine ⟨?_, ?_, ?_, ?_, ?_, ?_, ?_, ?_, ?_, ?_⟩
  · show cy.length = dst_h
    exact hcylen
  · show (if 0 < sw ∧ 0 < sh ∧ sx + sw ≤ dst_w ∧ sy + sh ≤ dst_h then sy else 0) ≤
      (if 0 < sw ∧ 0 < sh ∧ sx + sw ≤ dst_w ∧ sy + sh ≤ dst_h then sy else 0)
    exact le_refl _
  · show (if 0 < sw ∧ 0 < sh ∧ sx + sw ≤ dst_w ∧ sy + sh ≤ dst_h then sy else 0) ≤
      (if 0 < sw ∧ 0 < sh ∧ sx + sw ≤ dst_w ∧ sy + sh ≤ dst_h then sy + sh else dst_h)
    split_ifs with hv
    · omega
    · omega
  · show (if 0 < sw ∧ 0 < sh ∧ sx + sw ≤ dst_w ∧ sy + sh ≤ dst_h then sy + sh else dst_h) ≤
      dst_h
    split_ifs with hv
    · omega
    · omega
  · show (0 : ℕ) ≤ src_h
    exact Nat.zero_le _
  · show src_h ≤ (List.replicate max_scan (none : Slot)).length
    rw [List.length_replicate]
    exact hcap
  · show ∀ i, i < dst_h → ∀ c ∈ cy.getD i [], c.pixel < src_h
    intro i hi c hc
    have hmem : cy.getD i [] ∈ cy := by
      rw [List.getD_eq_getElem cy [] (by omega : i < cy.length)]
      exact List.getElem_mem _
    exact hpix _ hmem c hc
  · show ∀ p, (count0 cy dst_h p : ℤ) = (count0 cy dst_h p : ℤ) -
      (consumed cy
        (if 0 < sw ∧ 0 < sh ∧ sx + sw ≤ dst_w ∧ sy + sh ≤ dst_h then sy else 0)
        (if 0 < sw ∧ 0 < sh ∧ sx + sw ≤ dst_w ∧ sy + sh ≤ dst_h then sy else 0) p : ℤ) -
      (((fun _ => (0 : ℕ)) p : ℕ) : ℤ)
    intro p
    rw [consumed_self]
    push_cast
    ring
  · show ∀ p, false = true ↔ (p < 0 ∧ (count0 cy dst_h p : ℤ) ≠ 0)
    intro p
    constructor
    · intro h'
      exact absurd h' (by simp)
    · rintro ⟨h1, -⟩
      exact absurd h1 (Nat.not_lt_zero p)
  · refine ⟨?_, ?_, ?_⟩
    · show (bufYs (List.replicate max_scan none)).Nodup
      rw [bufYs_replicate_none]
      exact List.nodup_nil
    · intro q
      show q ∈ bufYs (List.replicate max_scan none) ↔ false = true
      rw [bufYs_replicate_none]
      simp
    · intro y d hm
      have hrep := List.eq_of_mem_replicate
        (show ((some (y, d) : Slot) ∈ List.replicate max_scan (none : Slot)) from hm)
      exact absurd hrep (by simp)

/-! ## The identity configuration of `make_clist` -/

theorem reflect_in_range (i n : ℕ) (hi : i < n) (op : Boundary_Op) :
    reflect (i : ℤ) (n : ℤ) op = (i : ℤ) := by
  have h1 : ¬ ((i : ℤ) < 0) := by omega
  have h2 : ¬ ((n : ℤ) ≤ (i : ℤ)) := by omega
  simp only [reflect, h1, h2, if_false]

theorem storePixel_natCast (i : ℕ) : storePixel (i : ℤ) = i % 65536 := by
  simp only [storePixel]
  omega

theorem clistXscale_self (n : ℕ) (hn : 0 < n) : clistXscale n n = 1 := by
  unfold clistXscale
  exact div_self (by exact_mod_cast hn.ne')

theorem centerOf_one (i : ℕ) : centerOf 1 0 i = (i : ℚ) := by
  unfold centerOf
  ring

theorem floor_sub_half (q : ℤ) : ⌊(q : ℚ) - 1/2⌋ = q - 1 := by
  have h : (q : ℚ) - 1/2 = (-(1/2) : ℚ) + (q : ℤ) := by ring
  rw [h, Int.floor_add_int]
  norm_num
  ring

theorem ceil_add_half (q : ℤ) : ⌈(q : ℚ) + 1/2⌉ = q + 1 := by
  have h : (q : ℚ) + 1/2 = ((1:ℚ)/2) + (q : ℤ) := by ring
  rw [h, Int.ceil_add_int]
  have hc : ⌈(1 : ℚ)/2⌉ = (1 : ℤ) := by
    rw [Int.ceil_eq_iff]
    norm_num
  rw [hc]
  ring

theorem leftOf_identity (i : ℕ) : leftOf 1 0 (1/2) i = (i : ℤ) - 1 := by
  unfold leftOf
  rw [ratFloor_eq, centerOf_one]
  have h : ((i : ℕ) : ℚ) = (((i : ℕ) : ℤ) : ℚ) := by push_cast; ring
  rw [h]
  exact floor_sub_half (i : ℤ)

theorem rightOf_identity (i : ℕ) : rightOf 1 0 (1/2) i = (i : ℤ) + 1 := by
  unfold rightOf
  rw [ratCeil_eq, centerOf_one]
  have h : ((i : ℕ) : ℚ) = (((i : ℕ) : ℤ) : ℚ) := by push_cast; ring
  rw [h]
  exact ceil_add_half (i : ℤ)

theorem candRange_identity (i : ℕ) :
    candRange ((i : ℤ) - 1) ((i : ℤ) + 1) = [(i : ℤ) - 1, (i : ℤ), (i : ℤ) + 1] := by
  unfold candRange
  have h3 : ((i : ℤ) + 1 - ((i : ℤ) - 1) + 1).toNat = 3 := by omega
  rw [h3]
  show List.map (fun k : ℕ => (i : ℤ) - 1 + (k : ℤ)) [0, 1, 2] = _
  simp only [List.map_cons, List.map_nil, List.cons.injEq, and_true]
  refine ⟨by push_cast; ring, by push_cast; ring, by push_cast; ring⟩

theorem rawWeight_box_left (i : ℕ) :
    rawWeight box_filter (i : ℚ) 1 1 ((i : ℤ) - 1) = 0 := by
  unfold rawWeight box_filter
  have h : ((i : ℚ) - (((i : ℤ) - 1 : ℤ) : ℚ)) * 1 * 1 = 1 := by push_cast; ring
  rw [h]
  norm_num

theorem rawWeight_box_mid (i : ℕ) :
    rawWeight box_filter (i : ℚ) 1 1 (i : ℤ) = 1 := by
  unfold rawWeight box_filter
  have h : ((i : ℚ) - (((i : ℤ) : ℤ) : ℚ)) * 1 * 1 = 0 := by push_cast; ring
  rw [h]
  norm_num

theorem rawWeight_box_right (i : ℕ) :
    rawWeight box_filter (i : ℚ) 1 1 ((i : ℤ) + 1) = 0 := by
  unfold rawWeight box_filter
  have h : ((i : ℚ) - (((i : ℤ) + 1 : ℤ) : ℚ)) * 1 * 1 = -1 := by push_cast; ring
  rw [h]
  norm_num

theorem buildAccOf_identity (n i : ℕ) (hi : i < n) :
    buildAccOf (n : ℤ) Boundary_Op.BOUNDARY_CLAMP box_filter 1 0 (1/2) 1 1 i =
      ⟨[⟨i % 65536, 1⟩], 1, 0, 1⟩ := by
  simp only [buildAccOf]
  rw [centerOf_one, leftOf_identity, rightOf_identity, candRange_identity]
  have htot : (([(i : ℤ) - 1, (i : ℤ), (i : ℤ) + 1].map
      (rawWeight box_filter (i : ℚ) 1 1)).sum) = 1 := by
    simp only [List.map_cons, List.map_nil, List.sum_cons, List.sum_nil,
      rawWeight_box_left, rawWeight_box_mid, rawWeight_box_right]
    norm_num
  rw [htot]
  simp only [List.foldl_cons, List.foldl_nil]
  have hstep1 : buildStep (n : ℤ) Boundary_Op.BOUNDARY_CLAMP
      (fun j => rawWeight box_filter (i : ℚ) 1 1 j * (1 / 1))
      ⟨[], 0, -1, -(10 ^ 20 : ℚ)⟩ ((i : ℤ) - 1) = ⟨[], 0, -1, -(10 ^ 20 : ℚ)⟩ := by
    simp only [buildStep, rawWeight_box_left, zero_mul]
    norm_num
  rw [hstep1]
  have hstep2 : buildStep (n : ℤ) Boundary_Op.BOUNDARY_CLAMP
      (fun j => rawWeight box_filter (i : ℚ) 1 1 j * (1 / 1))
      ⟨[], 0, -1, -(10 ^ 20 : ℚ)⟩ (i : ℤ) =
      ⟨[⟨i % 65536, 1⟩], 1, 0, 1⟩ := by
    simp only [buildStep, rawWeight_box_mid]
    rw [if_neg (by norm_num : ¬ ((1 : ℚ) * (1 / 1) = 0))]
    rw [reflect_in_range i n hi, storePixel_natCast]
    norm_num
  rw [hstep2]
  have hstep3 : buildStep (n : ℤ) Boundary_Op.BOUNDARY_CLAMP
      (fun j => rawWeight box_filter (i : ℚ) 1 1 j * (1 / 1))
      ⟨[⟨i % 65536, 1⟩], 1, 0, 1⟩ ((i : ℤ) + 1) = ⟨[⟨i % 65536, 1⟩], 1, 0, 1⟩ := by
    simp only [buildStep, rawWeight_box_right, zero_mul]
    norm_num
  rw [hstep3]

theorem buildOne_identity (n i : ℕ) (hi : i < n) :
    buildOne (n : ℤ) Boundary_Op.BOUNDARY_CLAMP box_filter 1 0 (1/2) 1 1 i =
      some [⟨i % 65536, 1⟩] := by
  simp only [buildOne]
  rw [buildAccOf_identity n i hi]
  norm_num

/-- `make_clist` on the identity configuration (equal extents, box kernel,
clamp boundary, unit scale, zero offset): one contributor per destination
coordinate, with weight one — and the stored source index reduced modulo
2^16 by the `unsigned short` cast. -/
theorem make_clist_identity (n : ℕ) (hn : 0 < n) :
    make_clist n n Boundary_Op.BOUNDARY_CLAMP box_filter (1/2) 1 0 =
      some ((List.range n).map (fun i => [⟨i % 65536, (1 : ℚ)⟩])) := by
  have hx1 : clistXscale n n = 1 := clistXscale_self n hn
  have hhw : clistHalfWidth n n (1/2) 1 = 1/2 := by
    unfold clistHalfWidth
    rw [hx1]
    norm_num
  have hmult : clistMult n n = 1 := by
    unfold clistMult
    rw [hx1]
    norm_num
  simp only [make_clist]
  rw [hx1, hhw, hmult]
  have htot : ((List.range n).map (fun i =>
      rightOf 1 0 (1/2) i - leftOf 1 0 (1/2) i + 1)).sum = 3 * (n : ℤ) := by
    have hcongr : (List.range n).map (fun i =>
        rightOf 1 0 (1/2) i - leftOf 1 0 (1/2) i + 1) =
        (List.range n).map (fun _ => (3 : ℤ)) := by
      apply List.map_congr_left
      intro i _
      rw [leftOf_identity, rightOf_identity]
      ring
    rw [hcongr, List.map_const', List.sum_replicate, List.length_range]
    simp [mul_comm]
  rw [htot]
  rw [if_neg (by omega : ¬ (3 * (n : ℤ) ≤ 0))]
  rw [show (1 : ℚ) / 1 = 1 from by norm_num]
  exact buildAll_of_all_some _ (fun i => [⟨i % 65536, 1⟩]) (List.range n)
    (fun i hi => buildOne_identity n i (List.mem_range.1 hi))

/-! ## Small list lemmas for the identity resample -/

theorem getD_map_range {α : Type} (f : ℕ → α) (dflt : α) (n i : ℕ) (h : i < n) :
    ((List.range n).map f).getD i dflt = f i := by
  rw [List.getD_eq_getElem ((List.range n).map f) dflt
    (by rw [List.length_map, List.length_range]; exact h)]
  rw [List.getElem_map, List.getElem_range]

theorem map_range_getD_self {α : Type} (l : List α) (dflt : α) :
    (List.range l.length).map (fun i => l.getD i dflt) = l := by
  induction l with
  | nil => rfl
  | cons a t ih =>
    rw [List.length_cons, List.range_succ_eq_map, List.map_cons, List.map_map]
    have hcomp : ((fun i => (a :: t).getD i dflt) ∘ Nat.succ) =
        (fun i => t.getD i dflt) := by
      funext i
      simp [List.getD_cons_succ]
    rw [hcomp, ih]
    rfl

theorem add_rows_replicate_zero (x : List Sample) (n : ℕ) (h : x.length = n) :
    add_rows (List.replicate n 0) x = x := by
  induction n generalizing x with
  | zero =>
    rw [List.length_eq_zero] at h
    subst h
    rfl
  | succ n ih =>
    match x with
    | [] => simp at h
    | a :: t =>
      rw [List.length_cons] at h
      rw [List.replicate_succ]
      show (0 + a) :: add_rows (List.replicate n 0) t = a :: t
      rw [zero_add, ih t (by omega)]

/-! ## Claim theorems -/

/-- C1: for every axis contributor table built successfully by `make_clist`,
and for every destination coordinate in it, the weights of that coordinate's
contributor list sum to exactly 1 (the residual `1 - total_weight` having
been folded into the largest-weight contributor). -/
theorem C1_weights_sum_to_one (src_w dst_w : ℕ) (op : Boundary_Op) (f : ℚ → ℚ)
    (support scale ofs : ℚ) (t : List (List Contrib)) (hw : 0 < src_w)
    (h : make_clist src_w dst_w op f support scale ofs = some t) :
    ∀ l ∈ t, weightSum l = 1 :=
  make_clist_weightSum_one src_w dst_w op f support scale ofs t hw h

/-- C1 witness: the 2→4 tent upsample under clamp. -/
theorem C1_witness :
    (0 < 2) ∧
    weightSum [⟨0, 1/4⟩, ⟨0, 3/4⟩] = 1 :=
  ⟨by norm_num,
    C1_weights_sum_to_one 2 4 Boundary_Op.BOUNDARY_CLAMP tent_filter 1 1 0
      [[⟨0, 1/4⟩, ⟨0, 3/4⟩], [⟨0, 3/4⟩, ⟨1, 1/4⟩], [⟨0, 1/4⟩, ⟨1, 3/4⟩],
        [⟨1, 3/4⟩, ⟨1, 1/4⟩]]
      (by norm_num) (by decide) [⟨0, 1/4⟩, ⟨0, 3/4⟩] (by simp)⟩

/-- C3 counterexample: source indices within one contributor list are NOT
always unique.  In the 2→4 tent upsample under clamp, the list of destination
coordinate 0 stores source index 0 twice (the candidates `j = -1` and `j = 0`
both clamp to 0). -/
theorem C3_counterexample :
    (make_clist 2 4 Boundary_Op.BOUNDARY_CLAMP tent_filter 1 1 0).map
      (fun t => t.map (fun l => l.map Contrib.pixel)) =
      some [[0, 0], [0, 1], [0, 1], [1, 1]] ∧
    ¬ ([0, 0] : List ℕ).Nodup := by
  constructor
  · decide
  · decide

/-- C3 amended: duplicate post-boundary-mapping source indices within one
contributor list are permitted; the duplicated candidates are stored as
separate contributors with their own weights, not merged (here indices
`[0, 0]` with weights `1/4` and `3/4`). -/
theorem C3_amended_duplicates_stored_separately :
    make_clist 2 4 Boundary_Op.BOUNDARY_CLAMP tent_filter 1 1 0 =
      some [[⟨0, 1/4⟩, ⟨0, 3/4⟩], [⟨0, 3/4⟩, ⟨1, 1/4⟩], [⟨0, 1/4⟩, ⟨1, 3/4⟩],
        [⟨1, 3/4⟩, ⟨1, 1/4⟩]] ∧
    ¬ ([⟨0, 1/4⟩, ⟨0, 3/4⟩] : List Contrib).map Contrib.pixel = [0, 1] ∧
    ¬ (([⟨0, 1/4⟩, ⟨0, 3/4⟩] : List Contrib).map Contrib.pixel).Nodup := by
  refine ⟨by decide, by decide, by decide⟩

/-- C4: the boundary resolver's exact semantics: clamp maps below-range to 0
and at/above-range to `n-1`; reflect maps `j < 0` to `min (-j) (n-1)` and
`j ≥ n` to `max ((n-j)+(n-1)) 0`; wrap is true mathematical modulo (negative
inputs map to `n - (|j| mod n)` when that residue is nonzero); and in-range
indices are returned unchanged under every policy. -/
theorem C4_boundary_resolver (n j : ℤ) (hn : 0 < n) :
    (j < 0 → reflect j n Boundary_Op.BOUNDARY_CLAMP = 0) ∧
    (n ≤ j → reflect j n Boundary_Op.BOUNDARY_CLAMP = n - 1) ∧
    (j < 0 → reflect j n Boundary_Op.BOUNDARY_REFLECT = min (-j) (n - 1)) ∧
    (n ≤ j → reflect j n Boundary_Op.BOUNDARY_REFLECT = max ((n - j) + (n - 1)) 0) ∧
    (reflect j n Boundary_Op.BOUNDARY_WRAP = j % n) ∧
    (j < 0 → |j| % n ≠ 0 → reflect j n Boundary_Op.BOUNDARY_WRAP = n - |j| % n) ∧
    (0 ≤ j → j < n → ∀ op, reflect j n op = j) := by
  have hpm := posmod_eq_emod j n hn
  have hcr : ¬ (Boundary_Op.BOUNDARY_CLAMP = Boundary_Op.BOUNDARY_REFLECT) := by decide
  have hcw : ¬ (Boundary_Op.BOUNDARY_CLAMP = Boundary_Op.BOUNDARY_WRAP) := by decide
  have hwr : ¬ (Boundary_Op.BOUNDARY_WRAP = Boundary_Op.BOUNDARY_REFLECT) := by decide
  refine ⟨?_, ?_, ?_, ?_, ?_, ?_, ?_⟩
  · intro hj
    simp only [reflect, if_pos hj, if_neg hcr, if_neg hcw]
  · intro hj
    have hj0 : ¬ (j < 0) := by omega
    simp only [reflect, if_neg hj0, if_pos hj, if_neg hcr, if_neg hcw]
  · intro hj
    simp only [reflect, if_pos hj, if_pos rfl]
    split_ifs with h1 <;> omega
  · intro hj
    have hj0 : ¬ (j < 0) := by omega
    simp only [reflect, if_neg hj0, if_pos hj, if_pos rfl]
    split_ifs with h1 <;> omega
  · by_cases hj : j < 0
    · simp only [reflect, if_pos hj, if_neg hwr, if_pos rfl]
      exact hpm
    · by_cases hj2 : n ≤ j
      · simp only [reflect, if_neg hj, if_pos hj2, if_neg hwr, if_pos rfl]
        exact hpm
      · simp only [reflect, if_neg hj, if_neg hj2]
        rw [Int.emod_eq_of_lt (by omega) (by omega)]
  · intro hj hm
    have hwrap : reflect j n Boundary_Op.BOUNDARY_WRAP = j % n := by
      simp only [reflect, if_pos hj, if_neg hwr, if_pos rfl]
      exact hpm
    rw [hwrap]
    have h2 : |j| = -j := abs_of_neg hj
    rw [h2] at hm ⊢
    have h3 : 0 ≤ j % n := Int.emod_nonneg j hn.ne'
    have h4 : j % n < n := Int.emod_lt_of_pos j hn
    by_cases h0 : j % n = 0
    · have hz : (-j) % n = 0 := by
        rw [Int.neg_emod, Int.sub_emod, Int.emod_self, h0, sub_zero, Int.zero_emod]
      exact absurd hz hm
    · have h8 : (-j) % n = n - j % n := by
        rw [Int.neg_emod, Int.sub_emod, Int.emod_self, zero_sub, Int.neg_emod,
            Int.emod_eq_of_lt (by omega) (by omega)]
      omega
  · intro h1 h2 op
    have hj0 : ¬ (j < 0) := by omega
    have hj2 : ¬ (n ≤ j) := by omega
    cases op <;> simp [reflect, hj0, hj2]

/-- C4 witness: concrete resolutions at extent 10. -/
theorem C4_witness :
    (0 : ℤ) < 10 ∧
    reflect (-5) 10 Boundary_Op.BOUNDARY_REFLECT = min (-(-5 : ℤ)) (10 - 1) :=
  ⟨by norm_num, (C4_boundary_resolver 10 (-5) (by norm_num)).2.2.1 (by norm_num)⟩

/-- C5: every source index stored in every contributor list of a successfully
built table lies in `[0, src_extent)`, for every boundary policy. -/
theorem C5_source_indices_in_range (src_w dst_w : ℕ) (op : Boundary_Op) (f : ℚ → ℚ)
    (support scale ofs : ℚ) (t : List (List Contrib)) (hw : 0 < src_w)
    (h : make_clist src_w dst_w op f support scale ofs = some t) :
    ∀ l ∈ t, ∀ c ∈ l, c.pixel < src_w :=
  make_clist_pixel_lt src_w dst_w op f support scale ofs t hw h

/-- C5 witness: the 4→2 tent downsample under wrap. -/
theorem C5_witness :
    (0 < 4) ∧
    (⟨3, 1/8⟩ : Contrib).pixel < 4 :=
  ⟨by norm_num,
    C5_source_indices_in_range 4 2 Boundary_Op.BOUNDARY_WRAP tent_filter 1 1 0
      [[⟨3, 1/8⟩, ⟨0, 3/8⟩, ⟨1, 3/8⟩, ⟨2, 1/8⟩], [⟨1, 1/8⟩, ⟨2, 3/8⟩, ⟨3, 3/8⟩, ⟨0, 1/8⟩]]
      (by norm_num) (by decide)
      [⟨3, 1/8⟩, ⟨0, 3/8⟩, ⟨1, 3/8⟩, ⟨2, 1/8⟩] (by simp) ⟨3, 1/8⟩ (by simp)⟩

/-- C6 counterexample: not every registered kernel clamps near-zero outputs
to exactly zero.  `tent` is a registered kernel, and at `t = 99999/100000`
its (exactly computed) output `1/100000` has magnitude below `1.25e-5` yet is
returned as is, not as zero: the polynomial kernels do not pass through
`clean`. -/
theorem C6_counterexample :
    "tent" ∈ g_filter_names ∧
    tent_filter (99999/100000) = 1/100000 ∧
    (1/100000 : ℚ) ≠ 0 ∧
    |(1/100000 : ℚ)| < 125/10000000 := by
  refine ⟨by decide, by decide, by norm_num, by rw [abs_lt]; constructor <;> norm_num⟩

/-- C6 amended: only the windowed kernels (`blackman`, `gaussian`,
`lanczos3/4/6/12`, `kaiser`) clamp near-zero outputs below `1.25e-5` in
magnitude to exactly zero, by passing their transcendental core through
`clean`; the polynomial kernels (`box`, `tent`, `bell`, `b-spline`,
`mitchell`, `catmullrom` and the quadratics) return their raw values. -/
theorem C6_amended_clean_kernels_clamp (raw : ℚ → ℚ) (support t : ℚ)
    (h : |raw (if t < 0 then -t else t)| < 125/10000000) :
    clean_windowed raw support t = 0 := by
  simp only [clean_windowed, clean]
  by_cases h1 : t < 0
  · rw [if_pos h1] at h
    rw [if_pos h1]
    by_cases h2 : -t < support
    · rw [if_pos h2, if_pos h]
    · rw [if_neg h2]
  · rw [if_neg h1] at h
    rw [if_neg h1]
    by_cases h2 : t < support
    · rw [if_pos h2, if_pos h]
    · rw [if_neg h2]

/-- C6 amended witness: the zero core below threshold. -/
theorem C6_amended_witness :
    |(fun _ : ℚ => (0 : ℚ)) (if (0 : ℚ) < 0 then -(0 : ℚ) else 0)| < 125/10000000 ∧
    clean_windowed (fun _ : ℚ => (0 : ℚ)) 3 0 = 0 :=
  ⟨by norm_num, C6_amended_clean_kernels_clamp (fun _ => 0) 3 0 (by norm_num)⟩

/-- C7: if any destination coordinate ends up with zero surviving
contributors, `make_clist` fails as a whole — a successful table never
contains an empty list — and the constructor reports that failure as the
allocation-class status `STATUS_OUT_OF_MEMORY`. -/
theorem C7_degenerate_list_fails :
    (∀ (src_w dst_w : ℕ) (op : Boundary_Op) (f : ℚ → ℚ) (support scale ofs : ℚ)
      (t : List (List Contrib)), 0 < src_w →
      make_clist src_w dst_w op f support scale ofs = some t → [] ∉ t) ∧
    (∀ (src_w src_h dst_w dst_h : ℕ) (op : Boundary_Op) (lo hi : ℚ) (f : ℚ → ℚ)
      (support fx fy ox oy : ℚ) (sx sy sw sh max_scan : ℕ),
      make_clist src_w dst_w op f support fx ox = none →
      (construct src_w src_h dst_w dst_h op lo hi f support fx fy ox oy
        sx sy sw sh max_scan).status = Status.STATUS_OUT_OF_MEMORY) := by
  constructor
  · intro src_w dst_w op f support scale ofs t hw h hmem
    exact make_clist_ne_nil src_w dst_w op f support scale ofs t hw h [] hmem rfl
  · intro src_w src_h dst_w dst_h op lo hi f support fx fy ox oy sx sy sw sh max_scan hx
    exact construct_status_of_x_none src_w src_h dst_w dst_h op lo hi f support
      fx fy ox oy sx sy sw sh max_scan hx

/-- C7 witness: a filter that evaluates to zero everywhere gives every
destination coordinate zero surviving contributors; `make_clist` returns
`none` and the constructor latches `STATUS_OUT_OF_MEMORY`. -/
theorem C7_witness :
    (0 < 1) ∧
    ([] ∉ [[(⟨0, 1⟩ : Contrib)]]) ∧
    make_clist 1 1 Boundary_Op.BOUNDARY_CLAMP (fun _ => 0) (1/2) 1 0 = none ∧
    (construct 1 1 1 1 Boundary_Op.BOUNDARY_CLAMP 0 0 (fun _ => 0) (1/2) 1 1 0 0
      0 0 0 0 1).status = Status.STATUS_OUT_OF_MEMORY :=
  ⟨by norm_num,
    C7_degenerate_list_fails.1 1 1 Boundary_Op.BOUNDARY_CLAMP box_filter (1/2) 1 0
      [[⟨0, 1⟩]] (by norm_num) (by decide),
    by decide,
    C7_degenerate_list_fails.2 1 1 1 1 Boundary_Op.BOUNDARY_CLAMP 0 0 (fun _ => 0)
      (1/2) 1 1 0 0 0 0 0 0 1 (by decide)⟩

/-- C8: when `put_line` is called for a source row with dependent destination
rows and no free slot exists in the scan buffer, it latches
`STATUS_SCAN_BUFFER_FULL` and returns failure, changing nothing else: no row
stored, no slot consumed, no cursor advanced. -/
theorem C8_scan_buffer_full (s : EngineState) (row : List Sample)
    (hrun : s.cur_src_y < s.src_h)
    (hdep : s.y_count s.cur_src_y ≠ 0)
    (hfull : ∀ sl ∈ s.scan_buf, sl ≠ none) :
    put_line s row = (false, { s with status := Status.STATUS_SCAN_BUFFER_FULL }) := by
  have hnotle : ¬ s.src_h ≤ s.cur_src_y := by omega
  have hstore := storeRow_none_of_full s.cur_src_y
    (if s.delay_x then (List.range s.inter_x).map (fun i => row.getD i 0)
     else resample_x_row s.clist_x s.beg_x s.end_x row) s.scan_buf hfull
  simp only [put_line, hnotle, if_false, hdep, hstore]

/-- C8 witness: a one-slot engine whose single slot is occupied. -/
theorem C8_witness :
    ((0 : ℕ) < 1 ∧ (1 : ℤ) ≠ 0 ∧
      (∀ sl ∈ ([some (0, [(0 : ℚ)])] : List Slot), sl ≠ none)) ∧
    put_line
      { src_w := 1, src_h := 1, dst_w := 1, dst_h := 1,
        beg_x := 0, end_x := 1, beg_y := 0, end_y := 1,
        clist_x := [[⟨0, 1⟩]], clist_y := [[⟨0, 1⟩]],
        delay_x := false, inter_x := 1, lo := 0, hi := 0,
        cur_src_y := 0, cur_dst_y := 0,
        y_count := fun _ => 1, y_flag := fun _ => false,
        scan_buf := [some (0, [(0 : ℚ)])], status := Status.STATUS_OKAY } [0] =
    (false,
      { src_w := 1, src_h := 1, dst_w := 1, dst_h := 1,
        beg_x := 0, end_x := 1, beg_y := 0, end_y := 1,
        clist_x := [[⟨0, 1⟩]], clist_y := [[⟨0, 1⟩]],
        delay_x := false, inter_x := 1, lo := 0, hi := 0,
        cur_src_y := 0, cur_dst_y := 0,
        y_count := fun _ => 1, y_flag := fun _ => false,
        scan_buf := [some (0, [(0 : ℚ)])], status := Status.STATUS_SCAN_BUFFER_FULL }) :=
  ⟨⟨by norm_num, by norm_num, by decide⟩,
    C8_scan_buffer_full _ [0] (by norm_num) (by norm_num) (by decide)⟩

/-- C10: contributor source indices are stored through the `unsigned short`
cast, i.e. reduced modulo 2^16.  For extents at most 65536 the stored index
equals the boundary-resolved index; for larger extents the two can differ:
at extent 65537, the resolved in-range index 65536 is stored as 0 (visible in
the contributor table `make_clist` builds for the identity configuration). -/
theorem C10_unsigned_short_truncation :
    (∀ n : ℤ, 0 ≤ n → storePixel n = n.toNat % 65536) ∧
    (∀ src_w : ℕ, 0 < src_w → src_w ≤ 65536 → ∀ (j : ℤ) (op : Boundary_Op),
      storePixel (reflect j (src_w : ℤ) op) = (reflect j (src_w : ℤ) op).toNat) ∧
    (storePixel (reflect 65536 65537 Boundary_Op.BOUNDARY_CLAMP) ≠
      (reflect 65536 65537 Boundary_Op.BOUNDARY_CLAMP).toNat) ∧
    ((make_clist 65537 65537 Boundary_Op.BOUNDARY_CLAMP box_filter (1/2) 1 0).map
      (fun t => t.getD 65536 []) = some [⟨0, 1⟩]) := by
  refine ⟨?_, ?_, ?_, ?_⟩
  · intro n hn
    simp only [storePixel]
    omega
  · intro src_w h1 h2 j op
    have hb := reflect_nonneg_lt j (src_w : ℤ) op (by exact_mod_cast h1)
    simp only [storePixel]
    omega
  · decide
  · rw [make_clist_identity 65537 (by norm_num)]
    simp only [Option.map_some']
    rw [getD_map_range _ _ 65537 65536 (by norm_num)]

/-- C10 witness: wrap resolution at extent 5 stores untruncated. -/
theorem C10_witness :
    ((0 : ℕ) < 5 ∧ (5 : ℕ) ≤ 65536) ∧
    storePixel (reflect (-3) ((5 : ℕ) : ℤ) Boundary_Op.BOUNDARY_WRAP) =
      (reflect (-3) ((5 : ℕ) : ℤ) Boundary_Op.BOUNDARY_WRAP).toNat :=
  ⟨⟨by norm_num, by norm_num⟩,
    C10_unsigned_short_truncation.2.1 5 (by norm_num) (by norm_num) (-3)
      Boundary_Op.BOUNDARY_WRAP⟩

theorem getD_take {α : Type} (d : α) (l : List α) (k j : ℕ) (h : j < k) :
    (l.take k).getD j d = l.getD j d := by
  induction l generalizing k j with
  | nil => simp
  | cons a t ih =>
    cases k with
    | zero => omega
    | succ k =>
      cases j with
      | zero => simp
      | succ j => simpa using ih k j (by omega)

/-- C2: streaming protocol.  From a successfully constructed engine, feeding
all `src_h` source rows via `put_line` in order while pulling rows whenever
`get_line` produces (the `runRows` schedule) yields exactly
`dst_subrect_height` (`end_y - beg_y`) output rows, after which `get_line`
permanently returns `none` without changing state; and after feeding any
shorter prefix, if a contributor row of the pending destination row has not
yet been supplied, `get_line` returns `none` without changing state. -/
theorem C2_streaming_protocol (src_w src_h dst_w dst_h : ℕ) (op : Boundary_Op)
    (lo hi : ℚ) (f : ℚ → ℚ) (support fx fy ox oy : ℚ) (sx sy sw sh max_scan : ℕ)
    (rows : List (List Sample)) (s0 : EngineState)
    (hs0 : s0 = construct src_w src_h dst_w dst_h op lo hi f support fx fy ox oy
      sx sy sw sh max_scan)
    (hok : s0.status = Status.STATUS_OKAY)
    (hh : 0 < src_h) (hcap : src_h ≤ max_scan) (hrows : rows.length = src_h) :
    (∀ s' out, runRows s0 rows = (s', out) →
      out.length = s0.end_y - s0.beg_y ∧ get_line s' = (none, s')) ∧
    (∀ k s2 out2, runRows s0 (rows.take k) = (s2, out2) →
      (∃ c ∈ s2.clist_y.getD s2.cur_dst_y [], s2.cur_src_y ≤ c.pixel) →
      get_line s2 = (none, s2)) := by
  obtain ⟨cx, cy, hx, hy⟩ :=
    construct_okay_split src_w src_h dst_w dst_h op lo hi f support fx fy ox oy
      sx sy sw sh max_scan (hs0 ▸ hok)
  have heq : s0 = constructed src_w src_h dst_w dst_h lo hi sx sy sw sh max_scan cx cy := by
    rw [hs0, construct_eq_constructed src_w src_h dst_w dst_h op lo hi f support
      fx fy ox oy sx sy sw sh max_scan cx cy hx hy]
  have hcylen : cy.length = dst_h := make_clist_length src_h dst_h op f support fy oy cy hy
  have hpixcy : ∀ l ∈ cy, ∀ c ∈ l, c.pixel < src_h :=
    make_clist_pixel_lt src_h dst_h op f support fy oy cy hh hy
  have hInv0 : Inv rows s0 := by
    rw [heq]
    exact constructed_Inv rows src_w src_h dst_w dst_h lo hi sx sy sw sh max_scan
      cx cy hcylen hpixcy hcap
  have hcs : s0.cur_src_y = 0 := by rw [heq]; rfl
  have hsh : s0.src_h = src_h := by rw [heq]; rfl
  have hdh : s0.dst_h = dst_h := by rw [heq]; rfl
  have hbd : s0.cur_dst_y = s0.beg_y := by rw [heq]; rfl
  have hcly : s0.clist_y = cy := by rw [heq]; rfl
  constructor
  · intro s' out hrun
    obtain ⟨s₁, out₁, hrun₁, hInv₁, hFrz₁, hcs₁, hst₁, hcd₁, hout₁, -, hstop₁⟩ :=
      runRows_spec rows rows s0 hInv0
        (fun j hj => by rw [hcs, Nat.zero_add])
        (by rw [hcs, hsh, hrows]; omega)
    rw [hrun₁] at hrun
    cases hrun
    have hne : rows ≠ [] := by
      intro hnil
      rw [hnil] at hrows
      simp at hrows
      omega
    have hterm : s'.cur_dst_y = s'.end_y := by
      rcases hstop₁ hne with hterm | ⟨c, hc, hge⟩
      · exact hterm
      · exfalso
        have hcly₁ : s'.clist_y = cy := by
          rw [hFrz₁.2.2.2.2.2.2.2.2.2.1, hcly]
        have hdh₁ : s'.dst_h = dst_h := by rw [hFrz₁.2.2.2.1, hdh]
        have hsh₁ : s'.src_h = src_h := by rw [hFrz₁.2.1, hsh]
        by_cases hlt : s'.cur_dst_y < dst_h
        · have hp := hInv₁.hpix s'.cur_dst_y (by rw [hdh₁]; exact hlt) c hc
          rw [hsh₁] at hp
          rw [hcs₁, hcs, hrows] at hge
          omega
        · rw [hcly₁] at hc
          rw [List.getD_eq_default cy [] (by rw [hcylen]; omega)] at hc
          exact absurd hc (List.not_mem_nil c)
    refine ⟨?_, ?_⟩
    · rw [hout₁, List.length_map, List.length_range]
      have hey : s'.end_y = s0.end_y := hFrz₁.2.2.2.2.2.2.2.1
      rw [hterm, hey, hbd]
    · simp [get_line, hterm]
  · intro k s2 out2 hrun hmiss
    obtain ⟨s₂, out₂, hrun₂, hInv₂, -, -, -, -, -, -, -⟩ :=
      runRows_spec rows (rows.take k) s0 hInv0
        (fun j hj => by
          rw [List.length_take] at hj
          rw [hcs, Nat.zero_add]
          exact getD_take [] rows k j (by omega))
        (by rw [hcs, List.length_take, hrows]; omega)
    rw [hrun₂] at hrun
    cases hrun
    exact get_line_none_stuck rows _ hInv₂ hmiss

/-- C2 witness: the 1-by-1 identity engine fed its single row. -/
theorem C2_witness :
    ((construct 1 1 1 1 Boundary_Op.BOUNDARY_CLAMP 0 0 box_filter (1/2) 1 1 0 0
        0 0 0 0 1).status = Status.STATUS_OKAY ∧ 0 < 1 ∧ 1 ≤ 1 ∧
      ([[(2 : ℚ)]] : List (List Sample)).length = 1) ∧
    ((∀ s' out, runRows (construct 1 1 1 1 Boundary_Op.BOUNDARY_CLAMP 0 0
        box_filter (1/2) 1 1 0 0 0 0 0 0 1) [[(2 : ℚ)]] = (s', out) →
      out.length = (construct 1 1 1 1 Boundary_Op.BOUNDARY_CLAMP 0 0 box_filter
        (1/2) 1 1 0 0 0 0 0 0 1).end_y - (construct 1 1 1 1
        Boundary_Op.BOUNDARY_CLAMP 0 0 box_filter (1/2) 1 1 0 0 0 0 0 0 1).beg_y ∧
      get_line s' = (none, s')) ∧
    (∀ k s2 out2, runRows (construct 1 1 1 1 Boundary_Op.BOUNDARY_CLAMP 0 0
        box_filter (1/2) 1 1 0 0 0 0 0 0 1) (([[(2 : ℚ)]] :
          List (List Sample)).take k) = (s2, out2) →
      (∃ c ∈ s2.clist_y.getD s2.cur_dst_y [], s2.cur_src_y ≤ c.pixel) →
      get_line s2 = (none, s2))) :=
  ⟨⟨by decide, by norm_num, by norm_num, rfl⟩,
    C2_streaming_protocol 1 1 1 1 Boundary_Op.BOUNDARY_CLAMP 0 0 box_filter
      (1/2) 1 1 0 0 0 0 0 0 1 [[(2 : ℚ)]] _ rfl (by decide) (by norm_num)
      (by norm_num) rfl⟩

theorem resample_x_row_identity (n : ℕ) (hn2 : n ≤ 65536) (r : List Sample)
    (hr : r.length = n) :
    resample_x_row ((List.range n).map (fun i => [(⟨i % 65536, (1 : ℚ)⟩ : Contrib)]))
      0 n r = r := by
  unfold resample_x_row
  rw [Nat.sub_zero]
  have hcongr : ∀ k ∈ List.range n,
      ((((List.range n).map (fun i => [(⟨i % 65536, (1 : ℚ)⟩ : Contrib)])).getD
        (0 + k) []).map (fun c => r.getD c.pixel 0 * c.weight)).sum = r.getD k 0 := by
    intro k hk
    rw [List.mem_range] at hk
    rw [Nat.zero_add, getD_map_range _ _ n k hk]
    rw [List.map_cons, List.map_nil, List.sum_cons, List.sum_nil, add_zero]
    show r.getD (k % 65536) 0 * 1 = r.getD k 0
    rw [mul_one, Nat.mod_eq_of_lt (by omega)]
  rw [List.map_congr_left hcongr, ← hr, map_range_getD_self]

theorem scale_row_one (r : List Sample) (n : ℕ) (h : r.length = n) :
    scale_row 1 r n = r := by
  unfold scale_row
  have hcongr : ∀ i ∈ List.range n, r.getD i 0 * 1 = r.getD i 0 := fun i _ => mul_one _
  rw [List.map_congr_left hcongr, ← h, map_range_getD_self]

theorem outRow_identity (n : ℕ) (hn2 : n ≤ 65536) (rows : List (List Sample))
    (s : EngineState)
    (hdel : s.delay_x = false) (hbx : s.beg_x = 0) (hex : s.end_x = n)
    (hin : s.inter_x = n) (hlo : s.lo = 0) (hhi : s.hi = 0)
    (hclx : s.clist_x = (List.range n).map (fun i => [(⟨i % 65536, (1 : ℚ)⟩ : Contrib)]))
    (hcly : s.clist_y = (List.range n).map (fun i => [(⟨i % 65536, (1 : ℚ)⟩ : Contrib)]))
    (d : ℕ) (hd : d < n) (hr : (rows.getD d []).length = n) :
    outRow rows s d = rows.getD d [] := by
  have hdel' : ¬ (s.delay_x = true) := by simp [hdel]
  have hgetd : s.clist_y.getD d [] = [(⟨d, (1 : ℚ)⟩ : Contrib)] := by
    rw [hcly, getD_map_range _ _ n d hd, Nat.mod_eq_of_lt (by omega)]
  have hcache : cacheFun rows s d = rows.getD d [] := by
    unfold cacheFun
    rw [if_neg hdel', hclx, hbx, hex]
    exact resample_x_row_identity n hn2 (rows.getD d []) hr
  unfold outRow
  rw [hgetd]
  unfold partialTmp
  rw [List.foldl_cons, List.foldl_nil]
  show postprocess s (add_rows (List.replicate s.inter_x 0)
    (scale_row 1 (cacheFun rows s d) s.inter_x)) = rows.getD d []
  rw [hcache, hin, scale_row_one _ n hr, add_rows_replicate_zero _ n hr]
  simp only [postprocess]
  rw [hlo, hhi, if_neg (lt_irrefl (0 : ℚ)), if_neg hdel']

theorem constructed_identity_projections (n : ℕ) (T : List (List Contrib)) :
    (constructed n n n n 0 0 0 0 0 0 n T T).delay_x = false ∧
    (constructed n n n n 0 0 0 0 0 0 n T T).beg_x = 0 ∧
    (constructed n n n n 0 0 0 0 0 0 n T T).end_x = n ∧
    (constructed n n n n 0 0 0 0 0 0 n T T).inter_x = n ∧
    (constructed n n n n 0 0 0 0 0 0 n T T).cur_dst_y = 0 ∧
    (constructed n n n n 0 0 0 0 0 0 n T T).end_y = n ∧
    (constructed n n n n 0 0 0 0 0 0 n T T).cur_src_y = 0 ∧
    (constructed n n n n 0 0 0 0 0 0 n T T).src_h = n ∧
    (constructed n n n n 0 0 0 0 0 0 n T T).dst_h = n ∧
    (constructed n n n n 0 0 0 0 0 0 n T T).clist_x = T ∧
    (constructed n n n n 0 0 0 0 0 0 n T T).clist_y = T ∧
    (constructed n n n n 0 0 0 0 0 0 n T T).lo = 0 ∧
    (constructed n n n n 0 0 0 0 0 0 n T T).hi = 0 := by
  have hvalid : ¬(0 < 0 ∧ 0 < 0 ∧ 0 + 0 ≤ n ∧ 0 + 0 ≤ n) := by norm_num
  have hdelcore : decide ((4 * count_ops T * n) / 3 + count_ops T * n <
      count_ops T * n + (4 * count_ops T * n) / 3 ∨
      (count_ops T * n + (4 * count_ops T * n) / 3 =
        (4 * count_ops T * n) / 3 + count_ops T * n ∧ n < n)) = false := by
    rw [decide_eq_false_iff_not]
    rintro (h | ⟨-, h⟩) <;> omega
  refine ⟨?_, ?_, ?_, ?_, ?_, ?_, rfl, rfl, rfl, rfl, rfl, rfl, rfl⟩
  · show decide ((4 * count_ops T * n) / 3 + count_ops T * n <
        count_ops T * n + (4 * count_ops T * n) / 3 ∨
        (count_ops T * n + (4 * count_ops T * n) / 3 =
          (4 * count_ops T * n) / 3 + count_ops T * n ∧ n < n)) = false
    exact hdelcore
  · show (if 0 < 0 ∧ 0 < 0 ∧ 0 + 0 ≤ n ∧ 0 + 0 ≤ n then 0 else 0) = 0
    rw [if_neg hvalid]
  · show (if 0 < 0 ∧ 0 < 0 ∧ 0 + 0 ≤ n ∧ 0 + 0 ≤ n then 0 + 0 else n) = n
    rw [if_neg hvalid]
  · show (if (decide ((4 * count_ops T * n) / 3 + count_ops T * n <
        count_ops T * n + (4 * count_ops T * n) / 3 ∨
        (count_ops T * n + (4 * count_ops T * n) / 3 =
          (4 * count_ops T * n) / 3 + count_ops T * n ∧ n < n)) = true) then n
      else (if 0 < 0 ∧ 0 < 0 ∧ 0 + 0 ≤ n ∧ 0 + 0 ≤ n then 0 + 0 else n) -
        (if 0 < 0 ∧ 0 < 0 ∧ 0 + 0 ≤ n ∧ 0 + 0 ≤ n then 0 else 0)) = n
    rw [hdelcore, if_neg (by simp : ¬ (false = true)), if_neg hvalid, if_neg hvalid,
      Nat.sub_zero]
  · show (if 0 < 0 ∧ 0 < 0 ∧ 0 + 0 ≤ n ∧ 0 + 0 ≤ n then 0 else 0) = 0
    rw [if_neg hvalid]
  · show (if 0 < 0 ∧ 0 < 0 ∧ 0 + 0 ≤ n ∧ 0 + 0 ≤ n then 0 + 0 else n) = n
    rw [if_neg hvalid]

/-- C9 counterexample: at extent 65537 the identity-configuration contributor
table does not pair destination coordinate 65536 with source index 65536: the
`(unsigned short)` store truncates the in-range resolved index to 0, so the
lone contributor of that coordinate is `⟨0, 1⟩`, not `⟨65536, 1⟩`. -/
theorem C9_counterexample :
    (make_clist 65537 65537 Boundary_Op.BOUNDARY_CLAMP box_filter (1/2) 1 0).map
        (fun t => t.getD 65536 []) = some [⟨0, 1⟩] ∧
    ([(⟨0, 1⟩ : Contrib)] ≠ [(⟨65536, 1⟩ : Contrib)]) := by
  constructor
  · rw [make_clist_identity 65537 (by norm_num)]
    simp only [Option.map_some']
    rw [getD_map_range _ _ 65537 65536 (by norm_num)]
  · decide

/-- C9 (amended to extents at most 65536, where the `unsigned short` store is
lossless): in the identity configuration — equal extents, box kernel, zero
offset, unit scale, clamp boundary — every contributor list of the table is
the singleton same-index contributor with weight 1, and the streaming engine
reproduces every fed source row exactly. -/
theorem C9_identity_resample (n : ℕ) (hn : 0 < n) (hn2 : n ≤ 65536)
    (rows : List (List Sample)) (hrows : rows.length = n)
    (hwide : ∀ r ∈ rows, r.length = n) :
    make_clist n n Boundary_Op.BOUNDARY_CLAMP box_filter (1/2) 1 0 =
      some ((List.range n).map (fun i => [(⟨i, (1 : ℚ)⟩ : Contrib)])) ∧
    (∀ s' out, runRows (construct n n n n Boundary_Op.BOUNDARY_CLAMP 0 0
        box_filter (1/2) 1 1 0 0 0 0 0 0 n) rows = (s', out) → out = rows) := by
  have hid := make_clist_identity n hn
  constructor
  · rw [hid]
    congr 1
    apply List.map_congr_left
    intro i hi
    rw [List.mem_range] at hi
    rw [Nat.mod_eq_of_lt (by omega)]
  · intro s' out hrun
    rw [construct_eq_constructed n n n n Boundary_Op.BOUNDARY_CLAMP 0 0 box_filter
      (1/2) 1 1 0 0 0 0 0 0 n _ _ hid hid] at hrun
    obtain ⟨hdel, hbx, hex, hin, hcury, hendy, hcs0, hsh0, hdh0, hclx, hcly, hlo0, hhi0⟩ :=
      constructed_identity_projections n
        ((List.range n).map (fun i => [(⟨i % 65536, (1 : ℚ)⟩ : Contrib)]))
    have hlenT : ((List.range n).map
        (fun i => [(⟨i % 65536, (1 : ℚ)⟩ : Contrib)])).length = n := by
      rw [List.length_map, List.length_range]
    have hpixT : ∀ l ∈ (List.range n).map (fun i => [(⟨i % 65536, (1 : ℚ)⟩ : Contrib)]),
        ∀ c ∈ l, c.pixel < n :=
      make_clist_pixel_lt n n Boundary_Op.BOUNDARY_CLAMP box_filter (1/2) 1 0 _ hn hid
    have hInv : Inv rows (constructed n n n n 0 0 0 0 0 0 n
        ((List.range n).map (fun i => [(⟨i % 65536, (1 : ℚ)⟩ : Contrib)]))
        ((List.range n).map (fun i => [(⟨i % 65536, (1 : ℚ)⟩ : Contrib)]))) :=
      constructed_Inv rows n n n n 0 0 0 0 0 0 n _ _ hlenT hpixT (le_refl n)
    obtain ⟨s₁, out₁, hrun₁, hInv₁, hFrz₁, hcs₁, -, -, hout₁, -, hstop₁⟩ :=
      runRows_spec rows rows _ hInv
        (fun j hj => by rw [hcs0, Nat.zero_add])
        (by rw [hcs0, hsh0, hrows]; omega)
    rw [hrun₁] at hrun
    cases hrun
    have hne : rows ≠ [] := by
      intro hnil
      rw [hnil] at hrows
      simp at hrows
      omega
    have hterm : s'.cur_dst_y = s'.end_y := by
      rcases hstop₁ hne with h | ⟨c, hc, hge⟩
      · exact h
      · exfalso
        have hcly₁ : s'.clist_y = (List.range n).map
            (fun i => [(⟨i % 65536, (1 : ℚ)⟩ : Contrib)]) := by
          rw [hFrz₁.2.2.2.2.2.2.2.2.2.1, hcly]
        have hdh₁ : s'.dst_h = n := by rw [hFrz₁.2.2.2.1, hdh0]
        have hsh₁ : s'.src_h = n := by rw [hFrz₁.2.1, hsh0]
        rw [hcs₁, hcs0, hrows] at hge
        by_cases hlt : s'.cur_dst_y < n
        · have hp := hInv₁.hpix s'.cur_dst_y (by rw [hdh₁]; exact hlt) c hc
          rw [hsh₁] at hp
          omega
        · rw [hcly₁] at hc
          rw [List.getD_eq_default _ [] (by rw [hlenT]; omega)] at hc
          exact absurd hc (List.not_mem_nil c)
    rw [hout₁, hterm]
    have hEy : s'.end_y = n := by rw [hFrz₁.2.2.2.2.2.2.2.1, hendy]
    rw [hEy, hcury, Nat.sub_zero]
    have hcongr : ∀ k ∈ List.range n,
        outRow rows (constructed n n n n 0 0 0 0 0 0 n
          ((List.range n).map (fun i => [(⟨i % 65536, (1 : ℚ)⟩ : Contrib)]))
          ((List.range n).map (fun i => [(⟨i % 65536, (1 : ℚ)⟩ : Contrib)])))
          (0 + k) = rows.getD k [] := by
      intro k hk
      rw [List.mem_range] at hk
      rw [Nat.zero_add]
      have hkr : k < rows.length := by omega
      have hmem : rows.getD k [] ∈ rows := by
        rw [List.getD_eq_getElem rows [] hkr]
        exact List.getElem_mem hkr
      exact outRow_identity n hn2 rows _ hdel hbx hex hin hlo0 hhi0 hclx hcly k hk
        (hwide _ hmem)
    rw [List.map_congr_left hcongr, ← hrows, map_range_getD_self]

/-- C9 witness: the 1-by-1 identity engine reproduces its single row. -/
theorem C9_witness :
    (0 < 1 ∧ 1 ≤ 65536 ∧ ([[(3 : ℚ)]] : List (List Sample)).length = 1 ∧
      ∀ r ∈ ([[(3 : ℚ)]] : List (List Sample)), r.length = 1) ∧
    (make_clist 1 1 Boundary_Op.BOUNDARY_CLAMP box_filter (1/2) 1 0 =
      some ((List.range 1).map (fun i => [(⟨i, (1 : ℚ)⟩ : Contrib)])) ∧
    (∀ s' out, runRows (construct 1 1 1 1 Boundary_Op.BOUNDARY_CLAMP 0 0
        box_filter (1/2) 1 1 0 0 0 0 0 0 1) [[(3 : ℚ)]] = (s', out) →
      out = [[(3 : ℚ)]])) :=
  ⟨⟨by norm_num, by norm_num, rfl, by
      intro r hr
      rw [List.mem_singleton] at hr
      subst hr
      rfl⟩,
    C9_identity_resample 1 (by norm_num) (by norm_num) [[(3 : ℚ)]] rfl (by
      intro r hr
      rw [List.mem_singleton] at hr
      subst hr
      rfl)⟩

end Resampler
